import Mathlib

/-!
Verification development for the rsexp S-expression library.

The definitions below are a shallow embedding of `src/lib.rs`, `src/parse.rs`
and `src/of_sexp.rs`.  Bytes (`u8`) are modelled as `Nat`; byte buffers
(`Vec<u8>`, `&[u8]`) as `List Nat`.  Arithmetic on `u8` wraps modulo 256 as in
a release build (`% 256` is written where an overflow is possible).  The nom
result type `IResult<&[u8], T, Error<&[u8]>>` becomes
`Except NomErr (List Nat × T)` where the pair carries the remaining input
first, exactly like nom.  The recursive grammar functions take an explicit
fuel argument; a separate totality theorem shows that fuel
`2 * input.length + 2` is always sufficient, which justifies the fuel used in
the top-level entry points `from_slice`, `from_slice_allow_remaining` and
`from_slice_multi`.
-/

/-- Byte buffers (`Vec<u8>`, `&[u8]`). -/
abbrev Bytes := List Nat

/-- Type for S-expressions using owned values (`Sexp` in src/lib.rs). -/
inductive Sexp where
  | Atom (bytes : Bytes)
  | List (elems : List Sexp)

/-- A `Vec<Sexp>` (alias used where the constructor name `Sexp.List` would
shadow the `List` type). -/
abbrev SexpList := List Sexp

mutual

/-- Well-formedness of the byte model: every atom byte fits in a `u8`.
In Rust this holds by typing (`Vec<u8>`). -/
def Sexp.wf : Sexp → Bool
  | .Atom a => a.all (fun c => c ≤ 255)
  | .List l => wf_list l

def wf_list : List Sexp → Bool
  | [] => true
  | s :: tl => s.wf && wf_list tl

end

/-- The `MAX_LINE_WIDTH` constant of src/lib.rs. -/
def MAX_LINE_WIDTH : Nat := 90

/-- One step of the byte classification used in `must_escape` (src/lib.rs):
bytes 0..=32, 127..=255 and `"` `(` `)` `;` `\` force quoting. -/
def escape_worthy_byte (c : Nat) : Bool :=
  c ≤ 32 || (127 ≤ c && c ≤ 255) || c = 34 || c = 40 || c = 41 || c = 59 || c = 92

/-- The indexed loop of `must_escape`; `prev` is `data[index - 1]` (`none` at
index 0).  The two guarded arms detect the two-byte sequences `#|` and `|#`. -/
def must_escape_loop (prev : Option Nat) : List Nat → Bool
  | [] => false
  | c :: tl =>
    if escape_worthy_byte c then true
    else if c = 35 && prev = some 124 then true
    else if c = 124 && prev = some 35 then true
    else must_escape_loop (some c) tl

/-- `must_escape` of src/lib.rs: an empty atom, or one containing an
escape-worthy byte or a `#|` / `|#` pair, must be quoted. -/
def must_escape (data : List Nat) : Bool :=
  data.isEmpty || must_escape_loop none data

/-- Encoding of a single byte inside `write_escaped` (src/lib.rs): the match
arms for `\\`, `"`, `\n`, `\t`, `\r`, byte 8, printable ASCII, and the decimal
`\DDD` fallback, in source order. -/
def escape_byte (c : Nat) : List Nat :=
  if c = 92 ∨ c = 34 then [92, c]
  else if c = 10 then [92, 110]
  else if c = 9 then [92, 116]
  else if c = 13 then [92, 114]
  else if c = 8 then [92, 98]
  else if 32 ≤ c ∧ c ≤ 126 then [c]
  else [92, 48 + c / 100, 48 + (c / 10) % 10, 48 + c % 10]

/-- The body written by `write_escaped` between the two quote characters. -/
def escaped_body : List Nat → List Nat
  | [] => []
  | c :: tl => escape_byte c ++ escaped_body tl

/-- `write_escaped` of src/lib.rs: a quoted atom, `"` body `"`. -/
def write_escaped (data : List Nat) : List Nat :=
  34 :: escaped_body data ++ [34]

/-- Bytes produced for one atom by every writer: quoted iff `must_escape`. -/
def write_atom (v : List Nat) : List Nat :=
  if must_escape v then write_escaped v else v

mutual

/-- `Sexp::write` of src/lib.rs, collected into a byte list: an atom is
escaped if needed, a list is parenthesised with one space between elements. -/
def Sexp.write : Sexp → Bytes
  | .Atom v => write_atom v
  | .List vec => 40 :: write_elems vec ++ [41]

/-- The element loop of `Sexp::write`: a space before every element except
the first. -/
def write_elems : List Sexp → List Nat
  | [] => []
  | [s] => s.write
  | s :: s' :: tl => s.write ++ 32 :: write_elems (s' :: tl)

end

/-- `Sexp::to_bytes` of src/lib.rs. -/
def Sexp.to_bytes (s : Sexp) : Bytes := s.write

mutual

/-- The `write_loop` of `Sexp::write_mach` (src/lib.rs).  The boolean input
says whether a whitespace may be required before an unquoted atom; the
boolean output is the updated flag (true only after an unquoted atom). -/
def write_mach_loop : Sexp → Bool → List Nat × Bool
  | .Atom v, need_whitespace =>
    if must_escape v then (write_escaped v, false)
    else ((if need_whitespace then [32] else []) ++ v, true)
  | .List vec, _ => (40 :: (write_mach_elems vec false).1 ++ [41], false)

/-- The element loop of `write_mach`: threads the `need_whitespace` flag
through the children, starting from `false` after a `(`. -/
def write_mach_elems : List Sexp → Bool → List Nat × Bool
  | [], need_whitespace => ([], need_whitespace)
  | s :: tl, need_whitespace =>
    let p := write_mach_loop s need_whitespace
    let q := write_mach_elems tl p.2
    (p.1 ++ q.1, q.2)

end

/-- `Sexp::to_bytes_mach` of src/lib.rs. -/
def Sexp.to_bytes_mach (s : Sexp) : Bytes := (write_mach_loop s false).1

/-- The `EscapedSexpWithSize` type of `Sexp::write_hum` (src/lib.rs).  The
two atom constructors `AtomRef` (no escaping needed) and `AtomOwned` (escaped
bytes) are merged into one constructor holding exactly the bytes that will be
emitted; its `size` is their length in both cases, as in the source. -/
inductive EscapedSexpWithSize where
  | AtomE (bytes : List Nat)
  | ListE (total_size : Nat) (values : List EscapedSexpWithSize)

/-- The `size` function of `write_hum`. -/
def size : EscapedSexpWithSize → Nat
  | .AtomE b => b.length
  | .ListE t _ => t

/-- Sum of child sizes, the accumulation performed by `escape` on a list. -/
def sum_sizes : List EscapedSexpWithSize → Nat
  | [] => 0
  | v :: tl => size v + sum_sizes tl

mutual

/-- The `escape` pass of `write_hum` (pass 1): precompute emitted atom bytes
and cache each list's size `2 + len + sum of child sizes`. -/
def escape_hum : Sexp → EscapedSexpWithSize
  | .Atom a => .AtomE (if must_escape a then write_escaped a else a)
  | .List l =>
    let vs := escape_hum_list l
    .ListE (2 + l.length + sum_sizes vs) vs

def escape_hum_list : List Sexp → List EscapedSexpWithSize
  | [] => []
  | s :: tl => escape_hum s :: escape_hum_list tl

end

mutual

/-- The `write_loop` of `Sexp::write_hum` (pass 2).  Arguments mirror the
source: the node, `first_elem`, `indent_level`, and `already_written_on_line`
(the current column, returned updated together with the output bytes).
A non-first element is preceded by a newline plus `indent_level` spaces when
`size s + already_written > MAX_LINE_WIDTH`, and by a single space
otherwise. -/
def write_hum_loop (s : EscapedSexpWithSize) (first_elem : Bool)
    (indent_level : Nat) (already_written : Nat) : List Nat × Nat :=
  let sep : List Nat × Nat :=
    if first_elem = false ∧ MAX_LINE_WIDTH < size s + already_written then
      (10 :: List.replicate indent_level 32, indent_level)
    else if first_elem = false then ([32], already_written + 1)
    else ([], already_written)
  match s with
  | .AtomE a => (sep.1 ++ a, sep.2 + a.length)
  | .ListE _ values =>
    let inner := write_hum_elems values true (indent_level + 1) (sep.2 + 1)
    (sep.1 ++ 40 :: inner.1 ++ [41], inner.2 + 1)

/-- The element loop of `write_hum`: `first_elem` holds exactly for
`index == 0`, and the column is threaded through the children. -/
def write_hum_elems (vs : List EscapedSexpWithSize) (first_elem : Bool)
    (indent_level : Nat) (already_written : Nat) : List Nat × Nat :=
  match vs with
  | [] => ([], already_written)
  | v :: tl =>
    let p := write_hum_loop v first_elem indent_level already_written
    let q := write_hum_elems tl false indent_level p.2
    (p.1 ++ q.1, q.2)

end

/-- `Sexp::to_bytes_hum` of src/lib.rs: pass 1 then pass 2, starting with
`first_elem = true`, indent 0 and column 0. -/
def Sexp.to_bytes_hum (s : Sexp) : Bytes :=
  (write_hum_loop (escape_hum s) true 0 0).1

/-- Splits a byte list into its lines (maximal runs between newline bytes);
used to state properties of the human writer. -/
def lines_of : List Nat → List (List Nat)
  | [] => [[]]
  | c :: tl =>
    match lines_of tl with
    | [] => [[c]]
    | h :: t => if c = 10 then [] :: h :: t else (c :: h) :: t

/-- Cached pass-1 sizes of the children of a list node (empty for an atom). -/
def hum_child_sizes (s : Sexp) : List Nat :=
  match escape_hum s with
  | .AtomE _ => []
  | .ListE _ vs => vs.map size

/-! ### The parser (src/parse.rs) -/

/-- The nom `ErrorKind`s reached by src/parse.rs. -/
inductive ErrorKind where
  | not | nonEmpty | eof | char | many0
deriving DecidableEq, Repr

/-- `nom::error::Error<&[u8]>`: the input at the error site plus a kind. -/
structure NomError where
  remaining : List Nat
  kind : ErrorKind
deriving DecidableEq, Repr

/-- `nom::Err`: `error` is recoverable (`nom::Err::Error`), `failure` is not
(`nom::Err::Failure`). -/
inductive NomErr where
  | error (e : NomError)
  | failure (e : NomError)
deriving DecidableEq, Repr

/-- Result of a nom parser: remaining input paired with the parsed value. -/
abbrev PResult (α : Type) := Except NomErr (List Nat × α)

/-- Whitespace bytes of the grammar: space, tab, CR, LF. -/
def ws_byte (c : Nat) : Bool := c = 32 || c = 9 || c = 13 || c = 10

mutual

/-- `space_or_comments` of src/parse.rs, returning the remaining input (the
function never fails).  A `;` comment runs to the `\r` or `\n`, which the
outer loop then consumes as whitespace; here `skip_comment` consumes that
byte directly, which yields the same remaining input. -/
def space_or_comments : List Nat → List Nat
  | [] => []
  | c :: tl =>
    if ws_byte c then space_or_comments tl
    else if c = 59 then skip_comment tl
    else c :: tl

/-- Skipping the body of a `;` comment up to and including the end of line. -/
def skip_comment : List Nat → List Nat
  | [] => []
  | c :: tl => if c = 13 || c = 10 then space_or_comments tl else skip_comment tl

end

/-- Bytes that terminate an unquoted atom: `; ( ) "` space tab CR LF. -/
def stop_byte (c : Nat) : Bool :=
  c = 59 || c = 40 || c = 41 || c = 34 || c = 32 || c = 9 || c = 13 || c = 10

/-- The scan loop of `unquoted_string_` (src/parse.rs): `prev` is the
previous byte, `acc` the bytes scanned so far, `orig` the whole input (used
in error payloads).  A stop byte splits the input; a `#` after `|` or a `|`
after `#` is an unrecoverable failure (`ErrorKind::Not`). -/
def unquoted_loop (orig : List Nat) (prev : Option Nat) (acc : List Nat) :
    List Nat → PResult (List Nat)
  | [] => .ok ([], acc)
  | c :: tl =>
    if stop_byte c then .ok (c :: tl, acc)
    else if c = 35 && prev = some 124 then .error (.failure ⟨orig, .not⟩)
    else if c = 124 && prev = some 35 then .error (.failure ⟨orig, .not⟩)
    else unquoted_loop orig (some c) (acc ++ [c]) tl

/-- `unquoted_string_` of src/parse.rs. -/
def unquoted_string_ (input : List Nat) : PResult (List Nat) :=
  unquoted_loop input none [] input

/-- `unquoted_string` of src/parse.rs: an empty scan is a recoverable error
(`ErrorKind::NonEmpty`). -/
def unquoted_string (input : List Nat) : PResult (List Nat) :=
  match unquoted_string_ input with
  | .ok (next_input, a) =>
    if a.isEmpty then .error (.error ⟨input, .nonEmpty⟩) else .ok (next_input, a)
  | .error e => .error e

/-- `digit` of src/parse.rs, phrased on the byte itself. -/
def digit_val (c : Nat) : Option Nat :=
  if 48 ≤ c ∧ c ≤ 57 then some (c - 48) else none

/-- `hex_digit` of src/parse.rs, phrased on the byte itself. -/
def hex_digit_val (c : Nat) : Option Nat :=
  if 48 ≤ c ∧ c ≤ 57 then some (c - 48)
  else if 65 ≤ c ∧ c ≤ 70 then some (c - 65 + 10)
  else if 97 ≤ c ∧ c ≤ 102 then some (c - 97 + 10)
  else none

/-- `three_digits` of src/parse.rs reading at the head of `l`.  The source
computes `100 * d1 + 10 * d2 + d3` in `u8`, which wraps modulo 256 in a
release build; the wrap is made explicit here. -/
def three_digits (l : List Nat) : Option Nat :=
  match l with
  | c1 :: c2 :: c3 :: _ =>
    match digit_val c1, digit_val c2, digit_val c3 with
    | some d1, some d2, some d3 => some ((100 * d1 + 10 * d2 + d3) % 256)
    | _, _, _ => none
  | _ => none

/-- `two_hex_digits` of src/parse.rs reading at the head of `l`
(`16 * d1 + d2` never exceeds 255, so no wrap can occur). -/
def two_hex_digits (l : List Nat) : Option Nat :=
  match l with
  | c1 :: c2 :: _ =>
    match hex_digit_val c1, hex_digit_val c2 with
    | some d1, some d2 => some (16 * d1 + d2)
    | _, _ => none
  | _ => none

/-- The scan loop of `quoted_string` (src/parse.rs), with explicit fuel (one
unit per loop iteration; each iteration consumes at least one byte, so
`cur.length + 1` is always enough, see `quoted_string_loop_total`).
`orig` is the whole input to `quoted_string`, used in error payloads;
`buffer` accumulates decoded bytes.  On an unescaped `"` the split leaves the
quote in the remaining input, as `take_split` does in the source. -/
def quoted_string_loop (orig : List Nat) :
    Nat → List Nat → List Nat → Option (PResult (List Nat))
  | 0, _, _ => none
  | _ + 1, _, [] => some (.error (.failure ⟨orig, .eof⟩))
  | fuel + 1, buffer, c :: tl =>
    if c = 34 then some (.ok (c :: tl, buffer))
    else if c = 92 then
      match tl with
      | [] => some (.error (.failure ⟨orig, .eof⟩))
      | e :: tl' =>
        if e = 10 then
          quoted_string_loop orig fuel buffer
            (tl'.dropWhile (fun b => b = 32 || b = 9))
        else if e = 39 || e = 34 || e = 92 then
          quoted_string_loop orig fuel (buffer ++ [e]) tl'
        else if e = 110 then quoted_string_loop orig fuel (buffer ++ [10]) tl'
        else if e = 114 then quoted_string_loop orig fuel (buffer ++ [13]) tl'
        else if e = 116 then quoted_string_loop orig fuel (buffer ++ [9]) tl'
        else if e = 98 then quoted_string_loop orig fuel (buffer ++ [8]) tl'
        else if e = 120 then
          match two_hex_digits tl' with
          | some v => quoted_string_loop orig fuel (buffer ++ [v]) (tl'.drop 2)
          | none => quoted_string_loop orig fuel (buffer ++ [92, 120]) tl'
        else
          match three_digits (e :: tl') with
          | some v => quoted_string_loop orig fuel (buffer ++ [v]) (tl'.drop 2)
          | none => quoted_string_loop orig fuel (buffer ++ [92, e]) tl'
    else quoted_string_loop orig fuel (buffer ++ [c]) tl

/-- `atom` of src/parse.rs: `alt((unquoted_string, delimited(char('"'),
quoted_string, char('"'))))` wrapped in `Sexp::Atom`.  `alt` tries the second
branch only on a recoverable error and returns the second branch's error when
both fail; a `Failure` is propagated unchanged. -/
def atom (input : List Nat) : PResult Sexp :=
  match unquoted_string input with
  | .ok (next_input, a) => .ok (next_input, .Atom a)
  | .error (.failure e) => .error (.failure e)
  | .error (.error _) =>
    match input with
    | [] => .error (.error ⟨input, .char⟩)
    | c :: tl =>
      if c = 34 then
        match quoted_string_loop tl (tl.length + 1) [] tl with
        | some (.ok (rest, buffer)) =>
          (match rest with
           | [] => .error (.error ⟨rest, .char⟩)
           | r :: rest' =>
             if r = 34 then .ok (rest', .Atom buffer)
             else .error (.error ⟨rest, .char⟩))
        | some (.error e) => .error e
        | none => .error (.failure ⟨tl, .eof⟩)
      else .error (.error ⟨input, .char⟩)

mutual

/-- `sexp_no_leading_blank` of src/parse.rs:
`terminated(alt((atom, sexp_in_list)), space_or_comments)`, with
`sexp_in_list` inlined in the second `alt` branch (it is only called here).
The fuel decreases on every mutual call; `parser_total` below shows
`2 * input.length + 1` units always suffice. -/
def sexp_no_leading_blank : Nat → List Nat → Option (PResult Sexp)
  | 0, _ => none
  | fuel + 1, input =>
    match atom input with
    | .ok (rest, s) => some (.ok (space_or_comments rest, s))
    | .error (.failure e) => some (.error (.failure e))
    | .error (.error _) =>
      match input with
      | [] => some (.error (.error ⟨input, .char⟩))
      | c :: tl =>
        if c = 40 then
          match many0_sexp fuel (space_or_comments tl) with
          | none => none
          | some (.error e) => some (.error e)
          | some (.ok (rest, items)) =>
            match rest with
            | [] => some (.error (.error ⟨rest, .char⟩))
            | r :: rest' =>
              if r = 41 then some (.ok (space_or_comments rest', .List items))
              else some (.error (.error ⟨rest, .char⟩))
        else some (.error (.error ⟨input, .char⟩))

/-- nom's `many0 sexp_no_leading_blank`: stops and returns the accumulated
list on a recoverable error, propagates a failure, and errors with
`ErrorKind::Many0` if the inner parser succeeded without consuming input. -/
def many0_sexp : Nat → List Nat → Option (PResult (List Sexp))
  | 0, _ => none
  | fuel + 1, input =>
    match sexp_no_leading_blank fuel input with
    | none => none
    | some (.error (.error _)) => some (.ok (input, []))
    | some (.error (.failure e)) => some (.error (.failure e))
    | some (.ok (rest, s)) =>
      if rest = input then some (.error (.error ⟨input, .many0⟩))
      else
        match many0_sexp fuel rest with
        | none => none
        | some (.error e) => some (.error e)
        | some (.ok (rest', items)) => some (.ok (rest', s :: items))

end

/-- `from_slice_allow_remaining` of src/parse.rs:
`preceded(space_or_comments, sexp_no_leading_blank)`.  The fuel
`2 * input.length + 2` is sufficient by `parser_total`, so the `none` default
is unreachable. -/
def from_slice_allow_remaining (input : List Nat) : PResult Sexp :=
  match sexp_no_leading_blank (2 * input.length + 2) (space_or_comments input) with
  | some r => r
  | none => .error (.failure ⟨input, .eof⟩)

/-- `from_slice` of src/parse.rs: fails with `Failure(remaining, Eof)` if
bytes remain. -/
def from_slice (input : List Nat) : Except NomErr Sexp :=
  match from_slice_allow_remaining input with
  | .ok (remaining, sexp) =>
    if remaining = [] then .ok sexp else .error (.failure ⟨remaining, .eof⟩)
  | .error e => .error e

/-- `from_slice_multi` of src/parse.rs:
`preceded(space_or_comments, many0(sexp_no_leading_blank))`, then the same
trailing-bytes check as `from_slice`.  The `none` default is unreachable by
`parser_total`. -/
def from_slice_multi (input : List Nat) : Except NomErr (List Sexp) :=
  match many0_sexp (2 * input.length + 2) (space_or_comments input) with
  | some (.ok (remaining, sexps)) =>
    if remaining = [] then .ok sexps else .error (.failure ⟨remaining, .eof⟩)
  | some (.error e) => .error e
  | none => .error (.failure ⟨input, .eof⟩)

/-! ### The typed-conversion accessors (src/of_sexp.rs) -/

/-- The `IntoSexpError` variants reachable from `Sexp::extract_enum`. -/
inductive IntoSexpError where
  | expectedConstructorGotEmptyList (type_ : String)
  | expectedConstructorGotListInList (type_ : String)
deriving DecidableEq

/-- `Sexp::extract_enum` of src/of_sexp.rs: constructor name and argument
list of an enum encoding. -/
def Sexp.extract_enum : Sexp → String → Except IntoSexpError (Bytes × SexpList)
  | .Atom a, _ => .ok (a, [])
  | .List [], type_ => .error (.expectedConstructorGotEmptyList type_)
  | .List (x :: tl), type_ =>
    match x with
    | .Atom a => .ok (a, tl)
    | .List _ => .error (.expectedConstructorGotListInList type_)

/-! ### Specification-side helpers used to state the claims -/

/-- Whether `x` immediately followed by `y` occurs in `l`. -/
def has_pair (x y : Nat) : List Nat → Bool
  | a :: b :: tl => (a = x && b = y) || has_pair x y (b :: tl)
  | _ => false

/-- The tokens emitted by the machine writer, in emission order. -/
inductive MachTok where
  | popen
  | pclose
  | uatom (a : List Nat)
  | qatom (a : List Nat)
deriving DecidableEq

mutual

/-- Token sequence of a tree as `write_mach` emits it. -/
def mach_tokens : Sexp → List MachTok
  | .Atom a => if must_escape a then [.qatom a] else [.uatom a]
  | .List l => .popen :: mach_tokens_list l ++ [.pclose]

def mach_tokens_list : List Sexp → List MachTok
  | [] => []
  | s :: tl => mach_tokens s ++ mach_tokens_list tl

end

/-- Bytes of one machine-writer token. -/
def tok_bytes : MachTok → List Nat
  | .popen => [40]
  | .pclose => [41]
  | .uatom a => a
  | .qatom a => write_escaped a

/-- Whether a token is an unquoted atom. -/
def is_uatom : MachTok → Bool
  | .uatom _ => true
  | _ => false

/-- Declarative rendering of a machine-writer token stream: a single space is
inserted exactly between two consecutive unquoted atoms (`prev_unquoted`
records whether the previous token was an unquoted atom), and no separator
appears anywhere else. -/
def render_toks (prev_unquoted : Bool) : List MachTok → List Nat
  | [] => []
  | t :: ts =>
    (if prev_unquoted && is_uatom t then [32] else []) ++
      tok_bytes t ++ render_toks (is_uatom t) ts

/-- Condition on the bytes following an unquoted atom under which the scan
stops exactly at the boundary: end of input or a stop byte. -/
def stop_ok : List Nat → Bool
  | [] => true
  | c :: _ => stop_byte c

/-- All bytes are grammar whitespace. -/
def ws_only (l : List Nat) : Bool := l.all ws_byte

/-- Whether the last token of `ts` is an unquoted atom (`p` when empty). -/
def last_is_uatom (p : Bool) : List MachTok → Bool
  | [] => p
  | t :: ts => last_is_uatom (is_uatom t) ts

mutual

/-- `Render T o` says that `o` is a rendering of the tree `T` in which every
atom is written by `write_atom` (its bytes all fitting in a `u8`) and the
children of each list are separated by nonempty whitespace runs.  The plain
and human writers both produce renderings in this sense; the parsing theorems
show every rendering followed by a stop byte parses back to exactly `T`. -/
inductive Render : Sexp → List Nat → Prop where
  | atom : ∀ a : List Nat, (∀ c ∈ a, c ≤ 255) → Render (.Atom a) (write_atom a)
  | list : ∀ (l : List Sexp) (o : List Nat), SepRender l o →
      Render (.List l) (40 :: (o ++ [41]))

/-- The contents of a rendered list: child renderings joined by nonempty
whitespace separators. -/
inductive SepRender : List Sexp → List Nat → Prop where
  | nil : SepRender [] []
  | single : ∀ t o, Render t o → SepRender [t] o
  | cons : ∀ (t t2 : Sexp) (ts : List Sexp) (o w o2 : List Nat),
      Render t o → ws_only w = true → w ≠ [] → SepRender (t2 :: ts) o2 →
      SepRender (t :: t2 :: ts) (o ++ w ++ o2)

end

/-! ### Basic length lemmas -/

mutual

theorem space_or_comments_length_le : ∀ l : List Nat,
    (space_or_comments l).length ≤ l.length
  | [] => Nat.le.refl
  | c :: tl => by
    rw [space_or_comments]
    by_cases h1 : ws_byte c
    · simpa [h1] using Nat.le_succ_of_le (space_or_comments_length_le tl)
    · by_cases h2 : c = 59
      · simpa [h1, h2] using Nat.le_succ_of_le (skip_comment_length_le tl)
      · simp [h1, h2]

theorem skip_comment_length_le : ∀ l : List Nat,
    (skip_comment l).length ≤ l.length
  | [] => Nat.le.refl
  | c :: tl => by
    rw [skip_comment]
    by_cases h1 : c = 13 || c = 10
    · simpa [h1] using Nat.le_succ_of_le (space_or_comments_length_le tl)
    · simpa [h1] using Nat.le_succ_of_le (skip_comment_length_le tl)

end

theorem unquoted_loop_ok_length {orig : List Nat} :
    ∀ {cur : List Nat} {prev : Option Nat} {acc rest a : List Nat},
    unquoted_loop orig prev acc cur = .ok (rest, a) →
    a.length + rest.length = acc.length + cur.length := by
  intro cur
  induction cur with
  | nil =>
    intro prev acc rest a h
    rw [unquoted_loop] at h
    cases h
    simp
  | cons c tl ih =>
    intro prev acc rest a h
    rw [unquoted_loop] at h
    by_cases h1 : stop_byte c
    · simp [h1] at h
      obtain ⟨hr, ha⟩ := h
      subst hr; subst ha
      simp
    · by_cases h2 : c = 35 && prev = some 124
      · simp [h1, h2] at h
      · by_cases h3 : c = 124 && prev = some 35
        · simp [h1, h2, h3] at h
        · simp only [h1, h2, h3, if_false, Bool.false_eq_true] at h
          have := ih h
          simp at this ⊢
          omega

theorem dropWhile_length_le (p : Nat → Bool) :
    ∀ l : List Nat, (l.dropWhile p).length ≤ l.length
  | [] => Nat.le.refl
  | c :: tl => by
    rw [List.dropWhile]
    by_cases h : p c
    · simpa [h] using Nat.le_succ_of_le (dropWhile_length_le p tl)
    · simp [h]

theorem quoted_string_loop_ok_length {orig : List Nat} :
    ∀ (fuel : Nat) (buffer cur rest b : List Nat),
    quoted_string_loop orig fuel buffer cur = some (.ok (rest, b)) →
    rest.length ≤ cur.length := by
  intro fuel
  induction fuel with
  | zero => intro buffer cur rest b h; simp [quoted_string_loop] at h
  | succ fuel ih =>
    intro buffer cur rest b h
    match cur with
    | [] => simp [quoted_string_loop] at h
    | c :: tl =>
      rw [quoted_string_loop.eq_def] at h
      simp only [] at h
      by_cases hc : c = 34
      · simp only [hc, if_pos rfl] at h
        obtain ⟨h1, _⟩ : (34 : Nat) :: tl = rest ∧ buffer = b := by
          simpa using h
        subst h1
        simp [hc]
      · by_cases hb : c = 92
        · simp only [hc, hb, if_neg, if_pos rfl, Bool.false_eq_true] at h
          match tl with
          | [] => simp at h
          | e :: tl' =>
            simp only [] at h
            by_cases he : e = 10
            · simp only [he, if_pos rfl] at h
              have h1 := ih _ _ _ _ h
              have h2 := dropWhile_length_le (fun b => b = 32 || b = 9) tl'
              simp only [List.length_cons]
              omega
            · by_cases hq : e = 39 ∨ e = 34 ∨ e = 92
              · have : (e = 39 || e = 34 || e = 92) = true := by
                  rcases hq with h | h | h <;> simp [h]
                simp only [he, if_neg, this, if_pos] at h
                have h1 := ih _ _ _ _ h
                simp only [List.length_cons]
                omega
              · have hqf : (e = 39 || e = 34 || e = 92) = false := by
                  simp only [Bool.or_eq_false_iff, decide_eq_false_iff_not]
                  push_neg at hq
                  exact ⟨⟨hq.1, hq.2.1⟩, hq.2.2⟩
                simp only [he, hqf, if_neg, Bool.false_eq_true] at h
                by_cases h110 : e = 110
                · simp only [h110, if_pos rfl] at h
                  have h1 := ih _ _ _ _ h
                  simp only [List.length_cons]; omega
                · simp only [h110, if_neg, Bool.false_eq_true] at h
                  by_cases h114 : e = 114
                  · simp only [h114, if_pos rfl] at h
                    have h1 := ih _ _ _ _ h
                    simp only [List.length_cons]; omega
                  · simp only [h114, if_neg, Bool.false_eq_true] at h
                    by_cases h116 : e = 116
                    · simp only [h116, if_pos rfl] at h
                      have h1 := ih _ _ _ _ h
                      simp only [List.length_cons]; omega
                    · simp only [h116, if_neg, Bool.false_eq_true] at h
                      by_cases h98 : e = 98
                      · simp only [h98, if_pos rfl] at h
                        have h1 := ih _ _ _ _ h
                        simp only [List.length_cons]; omega
                      · simp only [h98, if_neg, Bool.false_eq_true] at h
                        by_cases h120 : e = 120
                        · simp only [h120, if_pos rfl] at h
                          cases hh : two_hex_digits tl' with
                          | some v =>
                            rw [hh] at h
                            have h1 := ih _ _ _ _ h
                            have h2 : (tl'.drop 2).length ≤ tl'.length := by
                              simp [List.length_drop]
                            simp only [List.length_cons]; omega
                          | none =>
                            rw [hh] at h
                            have h1 := ih _ _ _ _ h
                            simp only [List.length_cons]; omega
                        · simp only [h120, if_neg, Bool.false_eq_true] at h
                          cases hh : three_digits (e :: tl') with
                          | some v =>
                            rw [hh] at h
                            have h1 := ih _ _ _ _ h
                            have h2 : (tl'.drop 2).length ≤ tl'.length := by
                              simp [List.length_drop]
                            simp only [List.length_cons]; omega
                          | none =>
                            rw [hh] at h
                            have h1 := ih _ _ _ _ h
                            simp only [List.length_cons]; omega
        · simp only [hc, hb, if_neg, Bool.false_eq_true] at h
          have h1 := ih _ _ _ _ h
          simp only [List.length_cons]; omega

theorem quoted_string_loop_total {orig : List Nat} :
    ∀ (fuel : Nat) (buffer cur : List Nat), cur.length + 1 ≤ fuel →
    (quoted_string_loop orig fuel buffer cur).isSome := by
  intro fuel
  induction fuel with
  | zero => intro buffer cur h; omega
  | succ fuel ih =>
    intro buffer cur hf
    match cur with
    | [] => simp [quoted_string_loop]
    | c :: tl =>
      rw [quoted_string_loop.eq_def]
      simp only []
      by_cases hc : c = 34
      · simp [hc]
      · by_cases hb : c = 92
        · simp only [hc, hb, if_neg, if_pos rfl, Bool.false_eq_true]
          match tl with
          | [] => simp
          | e :: tl' =>
            simp only []
            have hlen : tl'.length + 1 ≤ fuel := by
              simp only [List.length_cons] at hf; omega
            by_cases he : e = 10
            · simp only [he, if_pos rfl]
              exact ih _ _ (by
                have := dropWhile_length_le (fun b => b = 32 || b = 9) tl'
                omega)
            · simp only [he, if_neg, Bool.false_eq_true]
              by_cases hq : (e = 39 || e = 34 || e = 92) = true
              · simp only [hq, if_pos]
                exact ih _ _ hlen
              · simp only [hq, if_neg, Bool.false_eq_true]
                by_cases h110 : e = 110
                · simp only [h110, if_pos rfl]; exact ih _ _ hlen
                · simp only [h110, if_neg, Bool.false_eq_true]
                  by_cases h114 : e = 114
                  · simp only [h114, if_pos rfl]; exact ih _ _ hlen
                  · simp only [h114, if_neg, Bool.false_eq_true]
                    by_cases h116 : e = 116
                    · simp only [h116, if_pos rfl]; exact ih _ _ hlen
                    · simp only [h116, if_neg, Bool.false_eq_true]
                      by_cases h98 : e = 98
                      · simp only [h98, if_pos rfl]; exact ih _ _ hlen
                      · simp only [h98, if_neg, Bool.false_eq_true]
                        by_cases h120 : e = 120
                        · simp only [h120, if_pos rfl]
                          cases hh : two_hex_digits tl' with
                          | some v =>
                            exact ih _ _ (by simp [List.length_drop]; omega)
                          | none => exact ih _ _ hlen
                        · simp only [h120, if_neg, Bool.false_eq_true]
                          cases hh : three_digits (e :: tl') with
                          | some v =>
                            exact ih _ _ (by simp [List.length_drop]; omega)
                          | none => exact ih _ _ hlen
        · simp only [hc, hb, if_neg, Bool.false_eq_true]
          exact ih _ _ (by simp only [List.length_cons] at hf; omega)

theorem unquoted_string_ok {input rest a : List Nat} :
    unquoted_string input = .ok (rest, a) →
    a ≠ [] ∧ a.length + rest.length = input.length := by
  intro h
  rw [unquoted_string] at h
  cases hu : unquoted_string_ input with
  | ok v =>
    obtain ⟨next, b⟩ := v
    rw [hu] at h
    simp only [] at h
    by_cases hb : b.isEmpty
    · rw [if_pos hb] at h
      simp at h
    · rw [if_neg hb] at h
      cases h
      have hl := unquoted_loop_ok_length
        (by rw [unquoted_string_] at hu; exact hu)
      exact ⟨by simpa [List.isEmpty_iff] using hb, by simpa using hl⟩
  | error e =>
    rw [hu] at h
    simp at h

theorem atom_consumes {input rest : List Nat} {s : Sexp} :
    atom input = .ok (rest, s) → rest.length < input.length := by
  intro h
  rw [atom.eq_def] at h
  cases hu : unquoted_string input with
  | ok v =>
    obtain ⟨next, b⟩ := v
    rw [hu] at h
    simp only [] at h
    cases h
    obtain ⟨hne, hsum⟩ := unquoted_string_ok hu
    have : 0 < b.length := List.length_pos.mpr hne
    omega
  | error e =>
    cases e with
    | failure e => rw [hu] at h; simp at h
    | error e =>
      rw [hu] at h
      simp only [] at h
      cases input with
      | nil => simp at h
      | cons c tl =>
        simp only [] at h
        by_cases hc : c = 34
        · rw [if_pos hc] at h
          cases hq : quoted_string_loop tl (tl.length + 1) [] tl with
          | none => rw [hq] at h; simp at h
          | some r =>
            cases r with
            | error e2 => rw [hq] at h; simp at h
            | ok v =>
              obtain ⟨qrest, buffer⟩ := v
              rw [hq] at h
              simp only [] at h
              cases qrest with
              | nil => simp at h
              | cons r rest2 =>
                simp only [] at h
                by_cases hr : r = 34
                · rw [if_pos hr] at h
                  cases h
                  have h1 := quoted_string_loop_ok_length
                    (tl.length + 1) [] tl _ _ hq
                  simp only [List.length_cons] at h1 ⊢
                  omega
                · rw [if_neg hr] at h; simp at h
        · rw [if_neg hc] at h; simp at h

theorem snlb_many0_length : ∀ fuel : Nat,
    (∀ input rest : List Nat, ∀ s : Sexp,
      sexp_no_leading_blank fuel input = some (.ok (rest, s)) →
      rest.length < input.length) ∧
    (∀ input rest : List Nat, ∀ l : SexpList,
      many0_sexp fuel input = some (.ok (rest, l)) →
      rest.length ≤ input.length) := by
  intro fuel
  induction fuel with
  | zero =>
    constructor <;> intro input rest x h <;>
      simp [sexp_no_leading_blank, many0_sexp] at h
  | succ fuel ih =>
    obtain ⟨ihs, ihm⟩ := ih
    constructor
    · intro input rest s h
      cases input with
      | nil =>
        rw [sexp_no_leading_blank.eq_2] at h
        cases ha : atom [] with
        | ok v =>
          obtain ⟨arest, as⟩ := v
          rw [ha] at h
          simp only [Option.some.injEq, Except.ok.injEq, Prod.mk.injEq] at h
          obtain ⟨h1, _⟩ := h
          subst h1
          have h2 := atom_consumes ha
          simp at h2
        | error e =>
          cases e with
          | failure e => rw [ha] at h; simp at h
          | error e => rw [ha] at h; simp at h
      | cons c tl =>
        rw [sexp_no_leading_blank.eq_3] at h
        cases ha : atom (c :: tl) with
        | ok v =>
          obtain ⟨arest, as⟩ := v
          rw [ha] at h
          simp only [Option.some.injEq, Except.ok.injEq, Prod.mk.injEq] at h
          obtain ⟨h1, _⟩ := h
          subst h1
          have h2 := atom_consumes ha
          have h3 := space_or_comments_length_le arest
          omega
        | error e =>
          cases e with
          | failure e => rw [ha] at h; simp at h
          | error e =>
            rw [ha] at h
            simp only [] at h
            by_cases hc : c = 40
            · rw [if_pos hc] at h
              cases hm : many0_sexp fuel (space_or_comments tl) with
              | none => rw [hm] at h; simp at h
              | some r =>
                cases r with
                | error e2 => rw [hm] at h; simp at h
                | ok v =>
                  obtain ⟨mrest, items⟩ := v
                  rw [hm] at h
                  simp only [] at h
                  cases mrest with
                  | nil => simp at h
                  | cons r mrest2 =>
                    simp only [] at h
                    by_cases hr : r = 41
                    · rw [if_pos hr] at h
                      simp only [Option.some.injEq, Except.ok.injEq,
                        Prod.mk.injEq] at h
                      obtain ⟨h1, _⟩ := h
                      subst h1
                      have h2 := ihm _ _ _ hm
                      have h3 := space_or_comments_length_le tl
                      have h4 := space_or_comments_length_le mrest2
                      simp only [List.length_cons] at h2 ⊢
                      omega
                    · rw [if_neg hr] at h; simp at h
            · rw [if_neg hc] at h; simp at h
    · intro input rest l h
      rw [many0_sexp] at h
      cases hs : sexp_no_leading_blank fuel input with
      | none => rw [hs] at h; simp at h
      | some r =>
        cases r with
        | error e =>
          cases e with
          | error e =>
            rw [hs] at h
            simp only [Option.some.injEq, Except.ok.injEq, Prod.mk.injEq] at h
            obtain ⟨h1, _⟩ := h
            subst h1
            exact Nat.le.refl
          | failure e => rw [hs] at h; simp at h
        | ok v =>
          obtain ⟨srest, s⟩ := v
          rw [hs] at h
          simp only [] at h
          by_cases hr : srest = input
          · rw [if_pos hr] at h; simp at h
          · rw [if_neg hr] at h
            cases hm : many0_sexp fuel srest with
            | none => rw [hm] at h; simp at h
            | some r2 =>
              cases r2 with
              | error e2 => rw [hm] at h; simp at h
              | ok v2 =>
                obtain ⟨mrest, items⟩ := v2
                rw [hm] at h
                simp only [Option.some.injEq, Except.ok.injEq,
                  Prod.mk.injEq] at h
                obtain ⟨h1, _⟩ := h
                subst h1
                have h2 := ihs _ _ _ hs
                have h3 := ihm _ _ _ hm
                omega

theorem snlb_consumes {fuel : Nat} {input rest : List Nat} {s : Sexp} :
    sexp_no_leading_blank fuel input = some (.ok (rest, s)) →
    rest.length < input.length :=
  (snlb_many0_length fuel).1 input rest s

theorem many0_remaining_le {fuel : Nat} {input rest : List Nat} {l : SexpList} :
    many0_sexp fuel input = some (.ok (rest, l)) →
    rest.length ≤ input.length :=
  (snlb_many0_length fuel).2 input rest l

theorem parser_total : ∀ fuel : Nat,
    (∀ input : List Nat, 2 * input.length + 1 ≤ fuel →
      (sexp_no_leading_blank fuel input).isSome) ∧
    (∀ input : List Nat, 2 * input.length + 2 ≤ fuel →
      (many0_sexp fuel input).isSome) := by
  intro fuel
  induction fuel with
  | zero => constructor <;> intro input hle <;> omega
  | succ fuel ih =>
    obtain ⟨ihs, ihm⟩ := ih
    constructor
    · intro input hle
      cases input with
      | nil =>
        rw [sexp_no_leading_blank.eq_2]
        cases ha : atom [] with
        | ok v => obtain ⟨r, s⟩ := v; simp
        | error e => cases e <;> simp
      | cons c tl =>
        rw [sexp_no_leading_blank.eq_3]
        cases ha : atom (c :: tl) with
        | ok v => obtain ⟨r, s⟩ := v; simp
        | error e =>
          cases e with
          | failure e2 => simp
          | error e2 =>
            simp only []
            by_cases hc : c = 40
            · rw [if_pos hc]
              have hm : (many0_sexp fuel (space_or_comments tl)).isSome := by
                apply ihm
                have h1 := space_or_comments_length_le tl
                simp only [List.length_cons] at hle
                omega
              cases hm2 : many0_sexp fuel (space_or_comments tl) with
              | none => rw [hm2] at hm; simp at hm
              | some r =>
                cases r with
                | error e3 => simp
                | ok v =>
                  obtain ⟨mrest, items⟩ := v
                  simp only []
                  cases mrest with
                  | nil => simp
                  | cons r mrest2 =>
                    simp only []
                    by_cases hr : r = 41
                    · rw [if_pos hr]; simp
                    · rw [if_neg hr]; simp
            · rw [if_neg hc]; simp
    · intro input hle
      rw [many0_sexp]
      have hs : (sexp_no_leading_blank fuel input).isSome := by
        apply ihs; omega
      cases hs2 : sexp_no_leading_blank fuel input with
      | none => rw [hs2] at hs; simp at hs
      | some r =>
        cases r with
        | error e => cases e <;> simp
        | ok v =>
          obtain ⟨srest, s⟩ := v
          simp only []
          by_cases hr : srest = input
          · rw [if_pos hr]; simp
          · rw [if_neg hr]
            have hcons := snlb_consumes hs2
            have hm : (many0_sexp fuel srest).isSome := by
              apply ihm; omega
            cases hm2 : many0_sexp fuel srest with
            | none => rw [hm2] at hm; simp at hm
            | some r2 =>
              cases r2 with
              | error e2 => simp
              | ok v2 => obtain ⟨a, b⟩ := v2; simp

/-! ### Characterizations of the escape predicate and the unquoted scan -/

theorem must_escape_loop_spec : ∀ (l : List Nat) (prev : Option Nat),
    must_escape_loop prev l =
      (l.any escape_worthy_byte || has_pair 35 124 (prev.toList ++ l) ||
        has_pair 124 35 (prev.toList ++ l)) := by
  intro l
  induction l with
  | nil =>
    intro prev
    cases prev <;> simp [must_escape_loop, has_pair]
  | cons c tl ih =>
    intro prev
    rw [must_escape_loop]
    by_cases h1 : escape_worthy_byte c
    · simp [h1]
    · by_cases h2 : (c = 35 && prev = some 124) = true
      · simp only [Bool.and_eq_true, decide_eq_true_eq] at h2
        obtain ⟨hc, hp⟩ := h2
        subst hc
        rw [hp]
        simp [has_pair]
      · by_cases h3 : (c = 124 && prev = some 35) = true
        · simp only [Bool.and_eq_true, decide_eq_true_eq] at h3
          obtain ⟨hc, hp⟩ := h3
          subst hc
          rw [hp]
          simp [has_pair]
        · rw [if_neg h1, if_neg h2, if_neg h3, ih (some c)]
          cases prev with
          | none => simp [h1]
          | some p =>
            have j1 : (decide (p = 35) && decide (c = 124)) = false := by
              by_cases hp35 : p = 35
              · have hcne : ¬c = 124 := fun hc =>
                  h3 (by simp [hc, hp35])
                simp [hcne]
              · simp [hp35]
            have j2 : (decide (p = 124) && decide (c = 35)) = false := by
              by_cases hp124 : p = 124
              · have hcne : ¬c = 35 := fun hc =>
                  h2 (by simp [hc, hp124])
                simp [hcne]
              · simp [hp124]
            simp only [Option.toList, List.cons_append, List.nil_append,
              List.any_cons, has_pair, j1, j2, Bool.false_or, h1,
              Bool.false_eq_true]

theorem must_escape_spec (data : List Nat) :
    must_escape data =
      (data.isEmpty || data.any escape_worthy_byte ||
        has_pair 35 124 data || has_pair 124 35 data) := by
  rw [must_escape, must_escape_loop_spec]
  simp [Option.toList, Bool.or_assoc]

theorem must_escape_false_facts {a : List Nat} (h : must_escape a = false) :
    a ≠ [] ∧ (∀ c ∈ a, escape_worthy_byte c = false) ∧
    has_pair 35 124 a = false ∧ has_pair 124 35 a = false := by
  rw [must_escape_spec] at h
  simp only [Bool.or_eq_false_iff] at h
  obtain ⟨⟨⟨h1, h2⟩, h3⟩, h4⟩ := h
  refine ⟨by simpa [List.isEmpty_iff] using h1, ?_, h3, h4⟩
  intro c hc
  exact Bool.not_eq_true _ ▸ (List.any_eq_false.mp h2 c hc)

theorem stop_byte_of_escape_worthy {c : Nat} (h : escape_worthy_byte c = false) :
    stop_byte c = false := by
  simp only [escape_worthy_byte, Bool.or_eq_false_iff] at h
  simp only [stop_byte, Bool.or_eq_false_iff]
  simp only [decide_eq_false_iff_not] at h ⊢
  obtain ⟨⟨⟨⟨⟨⟨h1, h2⟩, h3⟩, h4⟩, h5⟩, h6⟩, h7⟩ := h
  refine ⟨⟨⟨⟨⟨⟨⟨h6, h4⟩, h5⟩, h3⟩, ?_⟩, ?_⟩, ?_⟩, ?_⟩ <;> omega

theorem scan_split {p : Nat → Bool} : ∀ (a rest : List Nat),
    (∀ c ∈ a, p c = true) → (∀ c tl2, rest = c :: tl2 → p c = false) →
    (a ++ rest).takeWhile p = a ∧ (a ++ rest).dropWhile p = rest := by
  intro a
  induction a with
  | nil =>
    intro rest _ hrest
    cases rest with
    | nil => simp
    | cons c tl2 =>
      have := hrest c tl2 rfl
      simp [List.takeWhile, List.dropWhile, this]
  | cons x xs ih =>
    intro rest ha hrest
    have hx : p x = true := ha x (by simp)
    have := ih rest (fun c hc => ha c (by simp [hc])) hrest
    simp [List.takeWhile, List.dropWhile, hx, this.1, this.2]

theorem unquoted_loop_spec {orig : List Nat} : ∀ (cur : List Nat)
    (prev : Option Nat) (acc : List Nat),
    unquoted_loop orig prev acc cur =
      (if has_pair 35 124 (prev.toList ++ cur.takeWhile (fun c => !stop_byte c)) ||
          has_pair 124 35 (prev.toList ++ cur.takeWhile (fun c => !stop_byte c)) then
        .error (.failure ⟨orig, .not⟩)
      else .ok (cur.dropWhile (fun c => !stop_byte c),
        acc ++ cur.takeWhile (fun c => !stop_byte c))) := by
  intro cur
  induction cur with
  | nil =>
    intro prev acc
    cases prev <;> simp [unquoted_loop, has_pair]
  | cons c tl ih =>
    intro prev acc
    rw [unquoted_loop]
    by_cases h1 : stop_byte c
    · have ht : (c :: tl).takeWhile (fun c => !stop_byte c) = [] := by
        simp [List.takeWhile, h1]
      have hd : (c :: tl).dropWhile (fun c => !stop_byte c) = c :: tl := by
        simp [List.dropWhile, h1]
      rw [if_pos h1, ht, hd]
      cases prev <;> simp [has_pair]
    · have ht : (c :: tl).takeWhile (fun c => !stop_byte c) =
          c :: tl.takeWhile (fun c => !stop_byte c) := by
        simp [List.takeWhile, h1]
      have hd : (c :: tl).dropWhile (fun c => !stop_byte c) =
          tl.dropWhile (fun c => !stop_byte c) := by
        simp [List.dropWhile, h1]
      rw [if_neg h1, ht, hd]
      by_cases h2 : (c = 35 && prev = some 124) = true
      · simp only [Bool.and_eq_true, decide_eq_true_eq] at h2
        obtain ⟨hc, hp⟩ := h2
        subst hc
        rw [hp]
        simp [has_pair]
      · by_cases h3 : (c = 124 && prev = some 35) = true
        · simp only [Bool.and_eq_true, decide_eq_true_eq] at h3
          obtain ⟨hc, hp⟩ := h3
          subst hc
          rw [hp]
          simp [has_pair]
        · rw [if_neg h2, if_neg h3, ih (some c) (acc ++ [c])]
          cases prev with
          | none =>
            simp [List.append_assoc]
          | some p =>
            have j1 : (decide (p = 35) && decide (c = 124)) = false := by
              by_cases hp35 : p = 35
              · have hcne : ¬c = 124 := fun hc => h3 (by simp [hc, hp35])
                simp [hcne]
              · simp [hp35]
            have j2 : (decide (p = 124) && decide (c = 35)) = false := by
              by_cases hp124 : p = 124
              · have hcne : ¬c = 35 := fun hc => h2 (by simp [hc, hp124])
                simp [hcne]
              · simp [hp124]
            simp only [Option.toList, List.cons_append, List.nil_append,
              has_pair, j1, j2, Bool.false_or, List.append_assoc,
              List.singleton_append]

theorem unquoted_string_spec (input : List Nat) :
    unquoted_string input =
      (if has_pair 35 124 (input.takeWhile (fun c => !stop_byte c)) ||
          has_pair 124 35 (input.takeWhile (fun c => !stop_byte c)) then
        .error (.failure ⟨input, .not⟩)
      else if (input.takeWhile (fun c => !stop_byte c)).isEmpty then
        .error (.error ⟨input, .nonEmpty⟩)
      else .ok (input.dropWhile (fun c => !stop_byte c),
        input.takeWhile (fun c => !stop_byte c))) := by
  rw [unquoted_string, unquoted_string_, unquoted_loop_spec]
  simp only [Option.toList, List.nil_append]
  by_cases h : has_pair 35 124 (input.takeWhile (fun c => !stop_byte c)) ||
      has_pair 124 35 (input.takeWhile (fun c => !stop_byte c))
  · rw [if_pos h, if_pos h]
  · rw [if_neg h, if_neg h]

/-! ### Stepping lemmas for the quoted-string decoder -/

theorem qsl_three_digit_step {orig buffer rest : List Nat} {fuel : Nat}
    {d1 d2 d3 : Nat} (hd1 : d1 ≤ 9) (hd2 : d2 ≤ 9) (hd3 : d3 ≤ 9) :
    quoted_string_loop orig (fuel + 1) buffer
      (92 :: (48 + d1) :: (48 + d2) :: (48 + d3) :: rest) =
    quoted_string_loop orig fuel
      (buffer ++ [(100 * d1 + 10 * d2 + d3) % 256]) rest := by
  rw [quoted_string_loop.eq_def]
  have e34 : ¬(92 : Nat) = 34 := by omega
  have f10 : ¬(48 + d1 = 10) := by omega
  have fq : (decide (48 + d1 = 39) || decide (48 + d1 = 34) ||
      decide (48 + d1 = 92)) = false := by
    have : ¬(48 + d1 = 39) := by omega
    have : ¬(48 + d1 = 34) := by omega
    have : ¬(48 + d1 = 92) := by omega
    simp
    omega
  have f110 : ¬(48 + d1 = 110) := by omega
  have f114 : ¬(48 + d1 = 114) := by omega
  have f116 : ¬(48 + d1 = 116) := by omega
  have f98 : ¬(48 + d1 = 98) := by omega
  have f120 : ¬(48 + d1 = 120) := by omega
  have h3d : three_digits ((48 + d1) :: (48 + d2) :: (48 + d3) :: rest) =
      some ((100 * d1 + 10 * d2 + d3) % 256) := by
    rw [three_digits]
    have g1 : digit_val (48 + d1) = some d1 := by
      rw [digit_val, if_pos (by omega)]
      congr 1
      omega
    have g2 : digit_val (48 + d2) = some d2 := by
      rw [digit_val, if_pos (by omega)]
      congr 1
      omega
    have g3 : digit_val (48 + d3) = some d3 := by
      rw [digit_val, if_pos (by omega)]
      congr 1
      omega
    rw [g1, g2, g3]
  simp only [e34, if_neg, f10, fq, f110, f114, f116, f98, f120, h3d,
    Bool.false_eq_true, if_pos rfl, List.drop_succ_cons, List.drop_zero,
    if_false]
  rfl

theorem qsl_hex_fallback_step {orig buffer rest : List Nat} {fuel : Nat}
    (h : two_hex_digits rest = none) :
    quoted_string_loop orig (fuel + 1) buffer (92 :: 120 :: rest) =
    quoted_string_loop orig fuel (buffer ++ [92, 120]) rest := by
  rw [quoted_string_loop.eq_def]
  have fq : (decide ((120 : Nat) = 39) || decide ((120 : Nat) = 34) ||
      decide ((120 : Nat) = 92)) = false := by simp
  simp only [show ¬(92 : Nat) = 34 from by omega, if_neg,
    show ¬(120 : Nat) = 10 from by omega, fq,
    show ¬(120 : Nat) = 110 from by omega,
    show ¬(120 : Nat) = 114 from by omega,
    show ¬(120 : Nat) = 116 from by omega,
    show ¬(120 : Nat) = 98 from by omega,
    if_pos rfl, h, Bool.false_eq_true, if_false]
  rfl

theorem escape_byte_length_pos (c : Nat) : 0 < (escape_byte c).length := by
  rw [escape_byte]
  split <;> try simp
  split <;> try simp
  split <;> try simp
  split <;> try simp
  split <;> try simp
  split <;> simp

theorem qsl_escape_byte_step (c : Nat) (hc : c ≤ 255)
    {orig buffer rest : List Nat} {fuel : Nat} :
    quoted_string_loop orig (fuel + 1) buffer (escape_byte c ++ rest) =
    quoted_string_loop orig fuel (buffer ++ [c]) rest := by
  rw [escape_byte]
  by_cases h1 : c = 92 ∨ c = 34
  · rw [if_pos h1]
    rw [quoted_string_loop.eq_def]
    have fq : (decide (c = 39) || decide (c = 34) || decide (c = 92)) = true := by
      rcases h1 with h | h <;> simp [h]
    have f10 : ¬c = 10 := by rcases h1 with h | h <;> omega
    simp only [List.cons_append, show ¬(92 : Nat) = 34 from by omega, if_neg,
      f10, fq, if_pos, Bool.false_eq_true, if_false]
    simp
  · rw [if_neg h1]
    by_cases h2 : c = 10
    · rw [if_pos h2]
      rw [quoted_string_loop.eq_def]
      simp only [List.cons_append, show ¬(92 : Nat) = 34 from by omega, if_neg,
        show ¬(110 : Nat) = 10 from by omega,
        show (decide ((110 : Nat) = 39) || decide ((110 : Nat) = 34) ||
          decide ((110 : Nat) = 92)) = false from by simp,
        if_pos rfl, Bool.false_eq_true, if_false, h2]
      simp
    · rw [if_neg h2]
      by_cases h3 : c = 9
      · rw [if_pos h3]
        rw [quoted_string_loop.eq_def]
        simp only [List.cons_append, show ¬(92 : Nat) = 34 from by omega, if_neg,
          show ¬(116 : Nat) = 10 from by omega,
          show (decide ((116 : Nat) = 39) || decide ((116 : Nat) = 34) ||
            decide ((116 : Nat) = 92)) = false from by simp,
          show ¬(116 : Nat) = 110 from by omega,
          show ¬(116 : Nat) = 114 from by omega,
          if_pos rfl, Bool.false_eq_true, if_false, h3]
        simp
      · rw [if_neg h3]
        by_cases h4 : c = 13
        · rw [if_pos h4]
          rw [quoted_string_loop.eq_def]
          simp only [List.cons_append, show ¬(92 : Nat) = 34 from by omega,
            if_neg, show ¬(114 : Nat) = 10 from by omega,
            show (decide ((114 : Nat) = 39) || decide ((114 : Nat) = 34) ||
              decide ((114 : Nat) = 92)) = false from by simp,
            show ¬(114 : Nat) = 110 from by omega,
            if_pos rfl, Bool.false_eq_true, if_false, h4]
          simp
        · rw [if_neg h4]
          by_cases h5 : c = 8
          · rw [if_pos h5]
            rw [quoted_string_loop.eq_def]
            simp only [List.cons_append, show ¬(92 : Nat) = 34 from by omega,
              if_neg, show ¬(98 : Nat) = 10 from by omega,
              show (decide ((98 : Nat) = 39) || decide ((98 : Nat) = 34) ||
                decide ((98 : Nat) = 92)) = false from by simp,
              show ¬(98 : Nat) = 110 from by omega,
              show ¬(98 : Nat) = 114 from by omega,
              show ¬(98 : Nat) = 116 from by omega,
              if_pos rfl, Bool.false_eq_true, if_false, h5]
            simp
          · rw [if_neg h5]
            by_cases h6 : 32 ≤ c ∧ c ≤ 126
            · rw [if_pos h6]
              rw [quoted_string_loop.eq_def]
              have hc34 : ¬c = 34 := by
                intro h
                exact h1 (Or.inr h)
              have hc92 : ¬c = 92 := by
                intro h
                exact h1 (Or.inl h)
              simp only [List.cons_append, List.nil_append, hc34, hc92,
                if_neg, Bool.false_eq_true, if_false]
            · rw [if_neg h6]
              have hd1 : c / 100 ≤ 9 := by omega
              have hd2 : (c / 10) % 10 ≤ 9 := by omega
              have hd3 : c % 10 ≤ 9 := by omega
              rw [show (92 :: (48 + c / 100) :: (48 + c / 10 % 10) ::
                  [48 + c % 10]) ++ rest =
                92 :: (48 + c / 100) :: (48 + c / 10 % 10) ::
                  (48 + c % 10) :: rest from by simp]
              rw [qsl_three_digit_step hd1 hd2 hd3]
              have e2 : c / 10 = 10 * (c / 10 / 10) + c / 10 % 10 :=
                (Nat.div_add_mod (c / 10) 10).symm
              have e3 : c / 100 = c / 10 / 10 := by
                rw [Nat.div_div_eq_div_mul]
              have hsum : 100 * (c / 100) + 10 * (c / 10 % 10) + c % 10 = c := by
                rw [e3]
                omega
              rw [hsum, Nat.mod_eq_of_lt (by omega)]

theorem qsl_escaped_body : ∀ (a : List Nat) (fuel : Nat)
    (orig buffer rest : List Nat), (∀ c ∈ a, c ≤ 255) →
    (escaped_body a ++ 34 :: rest).length + 1 ≤ fuel →
    quoted_string_loop orig fuel buffer (escaped_body a ++ 34 :: rest) =
      some (.ok (34 :: rest, buffer ++ a)) := by
  intro a
  induction a with
  | nil =>
    intro fuel orig buffer rest _ hf
    match fuel, hf with
    | fuel + 1, _ =>
      rw [escaped_body]
      rw [quoted_string_loop.eq_def]
      simp
  | cons c tl ih =>
    intro fuel orig buffer rest hwf hf
    have hc : c ≤ 255 := hwf c (by simp)
    have heb : escaped_body (c :: tl) ++ 34 :: rest =
        escape_byte c ++ (escaped_body tl ++ 34 :: rest) := by
      rw [escaped_body]
      simp [List.append_assoc]
    rw [heb] at hf ⊢
    match fuel, hf with
    | fuel + 1, hf =>
      rw [qsl_escape_byte_step c hc]
      rw [ih fuel orig (buffer ++ [c]) rest (fun x hx => hwf x (by simp [hx]))
        (by
          have := escape_byte_length_pos c
          simp only [List.length_append] at hf ⊢
          omega)]
      simp

theorem atom_parses {a rest : List Nat}
    (hwf : ∀ c ∈ a, c ≤ 255)
    (hstop : must_escape a = false → stop_ok rest = true) :
    atom (write_atom a ++ rest) = .ok (rest, .Atom a) := by
  by_cases hme : must_escape a
  · have hwa : write_atom a ++ rest =
        34 :: (escaped_body a ++ 34 :: rest) := by
      rw [write_atom, if_pos hme, write_escaped]
      simp
    rw [hwa, atom.eq_def]
    have hu : unquoted_string (34 :: (escaped_body a ++ 34 :: rest)) =
        .error (.error ⟨34 :: (escaped_body a ++ 34 :: rest), .nonEmpty⟩) := by
      rw [unquoted_string_spec]
      have ht : (34 :: (escaped_body a ++ 34 :: rest)).takeWhile
          (fun c => !stop_byte c) = [] := by
        simp [List.takeWhile, stop_byte]
      rw [ht]
      simp [has_pair]
    rw [hu]
    simp only [if_true]
    rw [qsl_escaped_body a _ _ [] rest hwf (by omega)]
    simp
  · have hmef : must_escape a = false := by simpa using hme
    obtain ⟨hne, hsafe, hp1, hp2⟩ := must_escape_false_facts hmef
    have hstop2 := hstop hmef
    have hscan := scan_split (p := fun c => !stop_byte c) a rest
      (fun c hc => by simp [stop_byte_of_escape_worthy (hsafe c hc)])
      (fun c tl2 hrest => by
        rw [hrest] at hstop2
        simp only [stop_ok] at hstop2
        simp [hstop2])
    have hwa : write_atom a = a := by rw [write_atom, if_neg hme]
    rw [hwa, atom.eq_def]
    have hu : unquoted_string (a ++ rest) = .ok (rest, a) := by
      rw [unquoted_string_spec, hscan.1, hscan.2]
      rw [if_neg (by simp [hp1, hp2]),
        if_neg (by simpa [List.isEmpty_iff] using hne)]
    rw [hu]

/-! ### Helper lemmas about whitespace skipping and delimiter bytes -/

theorem soc_head_id {c : Nat} {tl : List Nat} (h1 : ws_byte c = false)
    (h2 : ¬c = 59) : space_or_comments (c :: tl) = c :: tl := by
  rw [space_or_comments]
  simp [h1, h2]

theorem soc_ws_append : ∀ {w : List Nat}, ws_only w = true →
    ∀ x : List Nat, space_or_comments (w ++ x) = space_or_comments x := by
  intro w
  induction w with
  | nil => intro _ x; simp
  | cons c tl ih =>
    intro hw x
    simp only [ws_only, List.all_cons, Bool.and_eq_true] at hw
    rw [List.cons_append, space_or_comments, if_pos hw.1]
    exact ih (by simp [ws_only, hw.2]) x

theorem ws_byte_stop {c : Nat} (h : ws_byte c = true) : stop_byte c = true := by
  simp only [ws_byte, Bool.or_eq_true, decide_eq_true_eq] at h
  simp only [stop_byte, Bool.or_eq_true, decide_eq_true_eq]
  rcases h with h | h | h | h <;> omega

theorem render_head : ∀ {t : Sexp} {o : List Nat}, Render t o →
    ∃ c o2, o = c :: o2 ∧ ws_byte c = false ∧ ¬c = 59 := by
  intro t o h
  cases h with
  | atom a hwf =>
    by_cases hme : must_escape a
    · refine ⟨34, escaped_body a ++ [34], ?_, by simp [ws_byte], by omega⟩
      rw [write_atom, if_pos hme, write_escaped]
      simp
    · have hmef : must_escape a = false := by simpa using hme
      obtain ⟨hne, hsafe, _, _⟩ := must_escape_false_facts hmef
      cases a with
      | nil => exact absurd rfl hne
      | cons c a2 =>
        have hc := hsafe c (by simp)
        simp only [escape_worthy_byte, Bool.or_eq_false_iff,
          decide_eq_false_iff_not] at hc
        refine ⟨c, a2, ?_, ?_, ?_⟩
        · rw [write_atom, if_neg hme]
        · simp only [ws_byte, Bool.or_eq_false_iff, decide_eq_false_iff_not]
          omega
        · omega
  | list l o0 hsep =>
    exact ⟨40, o0 ++ [41], rfl, by simp [ws_byte], by omega⟩

theorem render_soc {t : Sexp} {o : List Nat} (h : Render t o) (x : List Nat) :
    space_or_comments (o ++ x) = o ++ x := by
  obtain ⟨c, o2, rfl, hws, h59⟩ := render_head h
  rw [List.cons_append]
  exact soc_head_id hws h59

theorem render_nonempty {t : Sexp} {o : List Nat} (h : Render t o) : o ≠ [] := by
  obtain ⟨c, o2, rfl, _, _⟩ := render_head h
  simp

theorem sep_render_soc : ∀ {l : SexpList} {o : List Nat}, SepRender l o →
    l ≠ [] → ∀ x : List Nat, space_or_comments (o ++ x) = o ++ x := by
  intro l o h hne x
  cases h with
  | nil => exact absurd rfl hne
  | single t o hr => exact render_soc hr x
  | cons t t2 ts o w o2 hr hw hwne hsep =>
    rw [List.append_assoc, List.append_assoc]
    exact render_soc hr (w ++ (o2 ++ x))

theorem sep_render_nonempty {l : SexpList} {o : List Nat} (h : SepRender l o)
    (hne : l ≠ []) : o ≠ [] := by
  cases h with
  | nil => exact absurd rfl hne
  | single t o hr => exact render_nonempty hr
  | cons t t2 ts o w o2 hr hw hwne hsep =>
    have h1 := render_nonempty hr
    intro hcon
    rw [List.append_assoc] at hcon
    exact h1 (List.append_eq_nil.mp hcon).1

theorem atom_at_delim {c : Nat} {tl : List Nat} (hstop : stop_byte c = true)
    (hc34 : ¬c = 34) :
    atom (c :: tl) = .error (.error ⟨c :: tl, .char⟩) := by
  rw [atom.eq_def]
  have hu : unquoted_string (c :: tl) =
      .error (.error ⟨c :: tl, .nonEmpty⟩) := by
    rw [unquoted_string_spec]
    have ht : (c :: tl).takeWhile (fun c => !stop_byte c) = [] := by
      simp [List.takeWhile, hstop]
    rw [ht]
    simp [has_pair]
  rw [hu]
  simp only []
  rw [if_neg hc34]

theorem snlb_at_41 (fuel : Nat) (tl : List Nat) :
    sexp_no_leading_blank (fuel + 1) (41 :: tl) =
      some (.error (.error ⟨41 :: tl, .char⟩)) := by
  rw [sexp_no_leading_blank.eq_3]
  rw [atom_at_delim (by simp [stop_byte]) (by omega)]
  simp

theorem many0_at_41 (fuel : Nat) (tl : List Nat) :
    many0_sexp (fuel + 2) (41 :: tl) = some (.ok (41 :: tl, [])) := by
  rw [many0_sexp]
  rw [snlb_at_41]

theorem atom_at_open (tl : List Nat) :
    atom (40 :: tl) = .error (.error ⟨40 :: tl, .char⟩) :=
  atom_at_delim (by simp [stop_byte]) (by omega)

theorem sep_render_soc41 {l : SexpList} {o0 : List Nat} (h : SepRender l o0)
    (rest : List Nat) :
    space_or_comments (o0 ++ 41 :: rest) = o0 ++ 41 :: rest := by
  cases h with
  | nil => simpa using soc_head_id (c := 41) (by simp [ws_byte]) (by omega)
  | single t o hr => exact render_soc hr _
  | cons t t2 ts o w o2 hr hw hwne hsep =>
    rw [List.append_assoc, List.append_assoc]
    exact render_soc hr _

mutual

theorem R_parse : ∀ {T : Sexp} {o : List Nat}, Render T o →
    ∀ (rest : List Nat) (fuel : Nat), stop_ok rest = true →
    2 * (o ++ rest).length + 1 ≤ fuel →
    sexp_no_leading_blank fuel (o ++ rest) =
      some (.ok (space_or_comments rest, T))
  | _, _, .atom a hwf => fun rest fuel hstop hf => by
    obtain ⟨c, o2, heq, hws, h59⟩ := render_head (.atom a hwf)
    obtain ⟨f2, rfl⟩ : ∃ f2, fuel = f2 + 1 := ⟨fuel - 1, by omega⟩
    rw [heq, List.cons_append, sexp_no_leading_blank.eq_3,
      ← List.cons_append, ← heq]
    rw [atom_parses hwf (fun _ => hstop)]
  | _, _, .list l o0 hsep => fun rest fuel hstop hf => by
    obtain ⟨f2, rfl⟩ : ∃ f2, fuel = f2 + 1 := ⟨fuel - 1, by omega⟩
    rw [List.cons_append, sexp_no_leading_blank.eq_3]
    rw [atom_at_open]
    simp only [if_true]
    have hassoc : (o0 ++ [41]) ++ rest = o0 ++ 41 :: rest := by simp
    rw [hassoc]
    rw [sep_render_soc41 hsep rest]
    rw [SR_parse hsep rest f2 (by
      simp only [List.cons_append, List.length_cons, List.length_append] at hf ⊢
      omega)]
    simp

theorem SR_parse : ∀ {l : SexpList} {o : List Nat}, SepRender l o →
    ∀ (rest : List Nat) (fuel : Nat),
    2 * (o ++ 41 :: rest).length + 2 ≤ fuel →
    many0_sexp fuel (o ++ 41 :: rest) = some (.ok (41 :: rest, l))
  | _, _, .nil => fun rest fuel hf => by
    obtain ⟨f2, rfl⟩ : ∃ f2, fuel = f2 + 2 := ⟨fuel - 2, by
      simp only [List.nil_append, List.length_cons] at hf
      omega⟩
    simpa using many0_at_41 f2 rest
  | _, _, .single t o hr => fun rest fuel hf => by
    obtain ⟨f2, rfl⟩ : ∃ f2, fuel = f2 + 1 := ⟨fuel - 1, by omega⟩
    rw [many0_sexp]
    rw [R_parse hr (41 :: rest) f2 (by simp [stop_ok, stop_byte]) (by
      simp only [List.length_append, List.length_cons] at hf ⊢
      omega)]
    rw [soc_head_id (by simp [ws_byte]) (by omega)]
    simp only []
    have hone : o ≠ [] := render_nonempty hr
    rw [if_neg (by
      intro hcon
      apply hone
      have := congrArg List.length hcon
      simp only [List.length_cons, List.length_append] at this
      cases o with
      | nil => rfl
      | cons x xs => simp at this)]
    obtain ⟨f3, rfl⟩ : ∃ f3, f2 = f3 + 2 := ⟨f2 - 2, by
      simp only [List.length_append, List.length_cons] at hf
      omega⟩
    rw [many0_at_41 f3 rest]
  | _, _, .cons t t2 ts o w o2 hr hw hwne hsep => fun rest fuel hf => by
    obtain ⟨f2, rfl⟩ : ∃ f2, fuel = f2 + 1 := ⟨fuel - 1, by omega⟩
    rw [many0_sexp]
    have hshape : (o ++ w ++ o2) ++ 41 :: rest =
        o ++ (w ++ (o2 ++ 41 :: rest)) := by simp
    rw [hshape]
    have hstop1 : stop_ok (w ++ (o2 ++ 41 :: rest)) = true := by
      cases w with
      | nil => exact absurd rfl hwne
      | cons cw wtl =>
        simp only [ws_only, List.all_cons, Bool.and_eq_true] at hw
        simp [stop_ok, ws_byte_stop hw.1]
    rw [R_parse hr (w ++ (o2 ++ 41 :: rest)) f2 hstop1 (by
      simp only [List.length_append, List.length_cons] at hf ⊢
      omega)]
    rw [soc_ws_append hw, sep_render_soc hsep (by simp)]
    simp only []
    have hone : o ≠ [] := render_nonempty hr
    rw [if_neg (by
      intro hcon
      apply hone
      have := congrArg List.length hcon
      simp only [List.length_cons, List.length_append] at this
      cases o with
      | nil => rfl
      | cons x xs => simp at this; omega)]
    rw [SR_parse hsep rest f2 (by
      have hwlen : 0 < w.length := by
        cases w with
        | nil => exact absurd rfl hwne
        | cons cw wtl => simp
      simp only [List.length_append, List.length_cons] at hf ⊢
      omega)]

end

/-! ### The plain and human writers produce renderings -/

theorem wf_atom_bytes {a : List Nat} (h : Sexp.wf (.Atom a) = true) :
    ∀ c ∈ a, c ≤ 255 := by
  rw [Sexp.wf] at h
  intro c hc
  simpa using List.all_eq_true.mp h c hc

mutual

theorem write_renders : ∀ (T : Sexp), T.wf = true → Render T T.write
  | .Atom a => fun hwf => by
    rw [Sexp.write]
    exact .atom a (wf_atom_bytes hwf)
  | .List l => fun hwf => by
    rw [Sexp.write]
    exact .list l (write_elems l)
      (write_elems_renders l (by rw [Sexp.wf] at hwf; exact hwf))

theorem write_elems_renders : ∀ (l : List Sexp), wf_list l = true →
    SepRender l (write_elems l)
  | [] => fun _ => by
    rw [write_elems]
    exact .nil
  | [s] => fun h => by
    rw [write_elems]
    rw [wf_list] at h
    simp only [Bool.and_eq_true] at h
    exact .single s s.write (write_renders s h.1)
  | s :: s2 :: tl => fun h => by
    rw [write_elems]
    rw [wf_list] at h
    simp only [Bool.and_eq_true] at h
    have hsub := write_elems_renders (s2 :: tl) h.2
    have hr := write_renders s h.1
    have := SepRender.cons s s2 tl s.write [32] (write_elems (s2 :: tl)) hr
      (by simp [ws_only, ws_byte]) (by simp) hsub
    simpa using this

end

mutual

theorem hum_renders : ∀ (T : Sexp), T.wf = true →
    ∀ (first : Bool) (ind alr : Nat),
    ∃ w core, ws_only w = true ∧ (first = true → w = []) ∧
      (first = false → w ≠ []) ∧
      (write_hum_loop (escape_hum T) first ind alr).1 = w ++ core ∧
      Render T core
  | .Atom a => fun hwf first ind alr => by
    have hesc : escape_hum (.Atom a) = .AtomE (write_atom a) := by
      rw [escape_hum, write_atom]
    rw [hesc, write_hum_loop]
    cases first with
    | true =>
      refine ⟨[], write_atom a, by simp [ws_only], fun _ => rfl, by simp, ?_,
        .atom a (wf_atom_bytes hwf)⟩
      simp
    | false =>
      by_cases hcond : MAX_LINE_WIDTH < size (.AtomE (write_atom a)) + alr
      · refine ⟨10 :: List.replicate ind 32, write_atom a, ?_, by simp,
          by simp, ?_, .atom a (wf_atom_bytes hwf)⟩
        · simp only [ws_only, List.all_cons, Bool.and_eq_true]
          refine ⟨by simp [ws_byte], ?_⟩
          rw [List.all_eq_true]
          intro c hc
          have := List.eq_of_mem_replicate hc
          simp [this, ws_byte]
        · simp [hcond]
      · refine ⟨[32], write_atom a, by simp [ws_only, ws_byte], by simp,
          by simp, ?_, .atom a (wf_atom_bytes hwf)⟩
        simp [hcond]
  | .List l => fun hwf first ind alr => by
    have hwfl : wf_list l = true := by rw [Sexp.wf] at hwf; exact hwf
    rw [escape_hum, write_hum_loop]
    cases first with
    | true =>
      refine ⟨[],
        40 :: ((write_hum_elems (escape_hum_list l) true (ind + 1)
          (alr + 1)).1 ++ [41]), by simp [ws_only], fun _ => rfl, by simp,
        ?_, .list l _ (hum_elems_true l hwfl (ind + 1) (alr + 1))⟩
      simp
    | false =>
      by_cases hcond : MAX_LINE_WIDTH <
          size (.ListE (2 + l.length + sum_sizes (escape_hum_list l))
            (escape_hum_list l)) + alr
      · refine ⟨10 :: List.replicate ind 32,
          40 :: ((write_hum_elems (escape_hum_list l) true (ind + 1)
            (ind + 1)).1 ++ [41]), ?_, by simp, by simp, ?_,
          .list l _ (hum_elems_true l hwfl (ind + 1) (ind + 1))⟩
        · simp only [ws_only, List.all_cons, Bool.and_eq_true]
          refine ⟨by simp [ws_byte], ?_⟩
          rw [List.all_eq_true]
          intro c hc
          have := List.eq_of_mem_replicate hc
          simp [this, ws_byte]
        · simp [hcond]
      · refine ⟨[32],
          40 :: ((write_hum_elems (escape_hum_list l) true (ind + 1)
            (alr + 1 + 1)).1 ++ [41]), by simp [ws_only, ws_byte], by simp,
          by simp, ?_, .list l _ (hum_elems_true l hwfl (ind + 1)
            (alr + 1 + 1))⟩
        simp [hcond]

theorem hum_elems_true : ∀ (l : List Sexp), wf_list l = true →
    ∀ (ind alr : Nat),
    SepRender l (write_hum_elems (escape_hum_list l) true ind alr).1
  | [] => fun _ ind alr => by
    rw [escape_hum_list, write_hum_elems]
    exact .nil
  | [t] => fun h ind alr => by
    rw [wf_list] at h
    simp only [Bool.and_eq_true] at h
    rw [escape_hum_list, escape_hum_list, write_hum_elems]
    simp only [write_hum_elems]
    obtain ⟨w, core, hws, hwt, _, hout, hrend⟩ := hum_renders t h.1 true ind alr
    rw [hout, hwt rfl]
    simpa using SepRender.single t core hrend
  | t :: t2 :: ts => fun h ind alr => by
    rw [wf_list] at h
    simp only [Bool.and_eq_true] at h
    rw [escape_hum_list, write_hum_elems]
    simp only []
    obtain ⟨w1, core1, _, hwt, _, hout1, hrend1⟩ :=
      hum_renders t h.1 true ind alr
    rw [hout1, hwt rfl]
    obtain ⟨w2, o2, hws2, hw2ne, hout2, hsep2⟩ :=
      hum_elems_false (t2 :: ts) h.2 (by simp) ind
        (write_hum_loop (escape_hum t) true ind alr).2
    rw [hout2]
    have := SepRender.cons t t2 ts core1 w2 o2 hrend1 hws2 hw2ne hsep2
    simpa using this

theorem hum_elems_false : ∀ (l : List Sexp), wf_list l = true → l ≠ [] →
    ∀ (ind alr : Nat),
    ∃ w o, ws_only w = true ∧ w ≠ [] ∧
      (write_hum_elems (escape_hum_list l) false ind alr).1 = w ++ o ∧
      SepRender l o
  | [] => fun _ hne _ _ => absurd rfl hne
  | [t] => fun h _ ind alr => by
    rw [wf_list] at h
    simp only [Bool.and_eq_true] at h
    rw [escape_hum_list, escape_hum_list, write_hum_elems]
    simp only [write_hum_elems]
    obtain ⟨w, core, hws, _, hwf2, hout, hrend⟩ :=
      hum_renders t h.1 false ind alr
    refine ⟨w, core, hws, hwf2 rfl, ?_, .single t core hrend⟩
    rw [hout]
    simp
  | t :: t2 :: ts => fun h hne ind alr => by
    rw [wf_list] at h
    simp only [Bool.and_eq_true] at h
    rw [escape_hum_list, write_hum_elems]
    simp only []
    obtain ⟨w1, core1, hws1, _, hwf1, hout1, hrend1⟩ :=
      hum_renders t h.1 false ind alr
    obtain ⟨w2, o2, hws2, hw2ne, hout2, hsep2⟩ :=
      hum_elems_false (t2 :: ts) h.2 (by simp) ind
        (write_hum_loop (escape_hum t) false ind alr).2
    refine ⟨w1, core1 ++ w2 ++ o2, hws1, hwf1 rfl, ?_,
      SepRender.cons t t2 ts core1 w2 o2 hrend1 hws2 hw2ne hsep2⟩
    rw [hout1, hout2]
    simp

end

/-! ### The machine writer: parsing lemmas -/

theorem mach_loop_false_atom (a : List Nat) :
    (write_mach_loop (.Atom a) false).1 = write_atom a := by
  rw [write_mach_loop, write_atom]
  by_cases h : must_escape a
  · simp [h]
  · simp [h]

theorem mach_loop_nonempty (s : Sexp) : (write_mach_loop s false).1 ≠ [] := by
  cases s with
  | Atom a =>
    rw [write_mach_loop]
    by_cases h : must_escape a
    · simp [h, write_escaped]
    · simp only [h, if_neg, Bool.false_eq_true, if_false]
      have := (must_escape_false_facts (by simpa using h)).1
      simpa using this
  | List l => rw [write_mach_loop]; simp

theorem mach_loop_soc (s : Sexp) (b : Bool) (x : List Nat) :
    space_or_comments ((write_mach_loop s b).1 ++ x) =
      (write_mach_loop s false).1 ++ x := by
  cases s with
  | Atom a =>
    by_cases h : must_escape a
    · rw [write_mach_loop, write_mach_loop]
      simp only [h, if_pos, write_escaped]
      rw [List.cons_append]
      exact soc_head_id (by simp [ws_byte]) (by omega)
    · obtain ⟨hne, hsafe, _, _⟩ := must_escape_false_facts (by simpa using h)
      cases a with
      | nil => exact absurd rfl hne
      | cons c a2 =>
        have hc := hsafe c (by simp)
        simp only [escape_worthy_byte, Bool.or_eq_false_iff,
          decide_eq_false_iff_not] at hc
        have hid : space_or_comments ((c :: a2) ++ x) = (c :: a2) ++ x := by
          rw [List.cons_append]
          refine soc_head_id ?_ (by omega)
          simp only [ws_byte, Bool.or_eq_false_iff, decide_eq_false_iff_not]
          omega
        rw [write_mach_loop, write_mach_loop]
        cases b with
        | false => simpa [h] using hid
        | true =>
          simp only [h, Bool.false_eq_true, if_false, if_pos]
          show space_or_comments (32 :: (c :: a2 ++ x)) = c :: a2 ++ x
          rw [space_or_comments, if_pos (by simp [ws_byte])]
          simpa using hid
  | List l =>
    rw [write_mach_loop, write_mach_loop]
    simp only []
    rw [List.cons_append]
    exact soc_head_id (by simp [ws_byte]) (by omega)

theorem mach_loop_true_stop (s : Sexp) (x : List Nat) :
    stop_ok ((write_mach_loop s true).1 ++ x) = true := by
  cases s with
  | Atom a =>
    rw [write_mach_loop]
    by_cases h : must_escape a
    · simp [h, write_escaped, stop_ok, stop_byte]
    · simp [h, stop_ok, stop_byte]
  | List l => rw [write_mach_loop]; simp [stop_ok, stop_byte]

theorem mach_loop_nonempty_any (s : Sexp) (b : Bool) :
    (write_mach_loop s b).1 ≠ [] := by
  cases b with
  | false => exact mach_loop_nonempty s
  | true =>
    cases s with
    | Atom a =>
      rw [write_mach_loop]
      by_cases h : must_escape a
      · simp [h, write_escaped]
      · simp [h]
    | List l => rw [write_mach_loop]; simp

theorem mach_loop_len_le (s : Sexp) (b : Bool) :
    (write_mach_loop s false).1.length ≤ (write_mach_loop s b).1.length := by
  cases b with
  | false => exact Nat.le.refl
  | true =>
    cases s with
    | Atom a =>
      rw [write_mach_loop, write_mach_loop]
      by_cases h : must_escape a
      · simp [h]
      · simp [h]
    | List l => exact Nat.le.refl

mutual

theorem mach_parses : ∀ (T : Sexp), T.wf = true →
    ∀ (rest : List Nat) (fuel : Nat),
    (∀ a, T = .Atom a → must_escape a = false → stop_ok rest = true) →
    2 * ((write_mach_loop T false).1 ++ rest).length + 1 ≤ fuel →
    sexp_no_leading_blank fuel ((write_mach_loop T false).1 ++ rest) =
      some (.ok (space_or_comments rest, T))
  | .Atom a => fun hwf rest fuel hstop hf => by
    rw [mach_loop_false_atom] at hf ⊢
    obtain ⟨c, o2, heq, hws, h59⟩ := render_head (.atom a (wf_atom_bytes hwf))
    obtain ⟨f2, rfl⟩ : ∃ f2, fuel = f2 + 1 := ⟨fuel - 1, by omega⟩
    rw [heq, List.cons_append, sexp_no_leading_blank.eq_3,
      ← List.cons_append, ← heq]
    rw [atom_parses (wf_atom_bytes hwf) (hstop a rfl)]
  | .List l => fun hwf rest fuel hstop hf => by
    have hwfl : wf_list l = true := by rw [Sexp.wf] at hwf; exact hwf
    obtain ⟨f2, rfl⟩ : ∃ f2, fuel = f2 + 1 := ⟨fuel - 1, by omega⟩
    rw [write_mach_loop] at hf ⊢
    rw [show (40 :: (write_mach_elems l false).1 ++ [41]) ++ rest =
      40 :: ((write_mach_elems l false).1 ++ 41 :: rest) from by simp]
    rw [sexp_no_leading_blank.eq_3, atom_at_open]
    simp only [if_true]
    rw [mach_elems_parse l hwfl false rest f2 (by
      simp only [List.cons_append, List.length_cons, List.length_append,
        List.length_singleton] at hf ⊢
      omega)]
    simp

theorem mach_elems_parse : ∀ (l : List Sexp), wf_list l = true →
    ∀ (need : Bool) (rest : List Nat) (fuel : Nat),
    2 * ((write_mach_elems l need).1 ++ 41 :: rest).length + 2 ≤ fuel →
    many0_sexp fuel
      (space_or_comments ((write_mach_elems l need).1 ++ 41 :: rest)) =
      some (.ok (41 :: rest, l))
  | [] => fun _ need rest fuel hf => by
    rw [write_mach_elems] at hf ⊢
    simp only [List.nil_append] at hf ⊢
    rw [soc_head_id (by simp [ws_byte]) (by omega)]
    obtain ⟨f2, rfl⟩ : ∃ f2, fuel = f2 + 2 := ⟨fuel - 2, by
      simp only [List.length_cons] at hf
      omega⟩
    exact many0_at_41 f2 rest
  | s :: tl => fun h need rest fuel hf => by
    rw [wf_list] at h
    simp only [Bool.and_eq_true] at h
    rw [write_mach_elems] at hf ⊢
    rw [show ((write_mach_loop s need).1 ++
        (write_mach_elems tl (write_mach_loop s need).2).1) ++ 41 :: rest =
      (write_mach_loop s need).1 ++
        ((write_mach_elems tl (write_mach_loop s need).2).1 ++ 41 :: rest)
      from by simp]
    rw [mach_loop_soc]
    obtain ⟨f2, rfl⟩ : ∃ f2, fuel = f2 + 1 := ⟨fuel - 1, by omega⟩
    rw [many0_sexp]
    have hlen1 : 0 < (write_mach_loop s need).1.length :=
      List.length_pos.mpr (mach_loop_nonempty_any s need)
    have hlen2 : 0 < (write_mach_loop s false).1.length :=
      List.length_pos.mpr (mach_loop_nonempty s)
    rw [mach_parses s h.1 _ f2 (by
      intro a hsa hme
      subst hsa
      have hflag : (write_mach_loop (.Atom a) need).2 = true := by
        rw [write_mach_loop]
        cases need <;> simp [hme]
      rw [hflag]
      cases tl with
      | nil =>
        rw [write_mach_elems]
        simp [stop_ok, stop_byte]
      | cons s2 tl2 =>
        rw [write_mach_elems]
        simp only []
        rw [show ((write_mach_loop s2 true).1 ++
            (write_mach_elems tl2 (write_mach_loop s2 true).2).1) ++
            41 :: rest =
          (write_mach_loop s2 true).1 ++
            ((write_mach_elems tl2 (write_mach_loop s2 true).2).1 ++
              41 :: rest) from by simp]
        exact mach_loop_true_stop s2 _) (by
      have hle := mach_loop_len_le s need
      simp only [List.length_append, List.length_cons] at hf ⊢
      omega)]
    simp only []
    have hneq : ¬(space_or_comments
        ((write_mach_elems tl (write_mach_loop s need).2).1 ++ 41 :: rest) =
        (write_mach_loop s false).1 ++
          ((write_mach_elems tl (write_mach_loop s need).2).1 ++ 41 :: rest)) := by
      intro hcon
      have h1 := space_or_comments_length_le
        ((write_mach_elems tl (write_mach_loop s need).2).1 ++ 41 :: rest)
      have h2 := congrArg List.length hcon
      simp only [List.length_append] at h1 h2
      omega
    rw [if_neg hneq]
    rw [mach_elems_parse tl h.2 (write_mach_loop s need).2 rest f2 (by
      have hle := mach_loop_len_le s need
      simp only [List.length_append, List.length_cons] at hf ⊢
      omega)]

end

/-! ### Round trips of the three writers -/

theorem from_slice_of_render {T : Sexp} {o : List Nat} (h : Render T o) :
    from_slice o = .ok T := by
  rw [from_slice, from_slice_allow_remaining]
  have hsoc : space_or_comments o = o := by
    have := render_soc h []
    simpa using this
  rw [hsoc]
  have hparse := R_parse h [] (2 * o.length + 2) (by simp [stop_ok]) (by
    simp only [List.append_nil]
    omega)
  simp only [List.append_nil] at hparse
  rw [hparse]
  rw [show space_or_comments [] = [] from rfl]
  simp

theorem round_trip_plain {T : Sexp} (hwf : T.wf = true) :
    from_slice T.to_bytes = .ok T := by
  rw [Sexp.to_bytes]
  exact from_slice_of_render (write_renders T hwf)

theorem round_trip_hum {T : Sexp} (hwf : T.wf = true) :
    from_slice T.to_bytes_hum = .ok T := by
  rw [Sexp.to_bytes_hum]
  obtain ⟨w, core, _, hwt, _, hout, hrend⟩ := hum_renders T hwf true 0 0
  rw [hout, hwt rfl]
  simpa using from_slice_of_render hrend

theorem round_trip_mach {T : Sexp} (hwf : T.wf = true) :
    from_slice T.to_bytes_mach = .ok T := by
  rw [Sexp.to_bytes_mach, from_slice, from_slice_allow_remaining]
  have hsoc : space_or_comments (write_mach_loop T false).1 =
      (write_mach_loop T false).1 := by
    have := mach_loop_soc T false []
    simpa using this
  rw [hsoc]
  have hparse := mach_parses T hwf [] (2 * (write_mach_loop T false).1.length + 2)
    (fun _ _ _ => rfl) (by simp only [List.append_nil]; omega)
  simp only [List.append_nil] at hparse
  rw [hparse]
  rw [show space_or_comments [] = [] from rfl]
  simp

/-! ### The machine writer as a token stream -/

theorem last_is_uatom_append : ∀ (ts us : List MachTok) (p : Bool),
    last_is_uatom p (ts ++ us) = last_is_uatom (last_is_uatom p ts) us := by
  intro ts
  induction ts with
  | nil => intro us p; simp [last_is_uatom]
  | cons t ts ih =>
    intro us p
    rw [List.cons_append, last_is_uatom, last_is_uatom]
    exact ih us (is_uatom t)

theorem render_toks_append : ∀ (ts us : List MachTok) (p : Bool),
    render_toks p (ts ++ us) =
      render_toks p ts ++ render_toks (last_is_uatom p ts) us := by
  intro ts
  induction ts with
  | nil => intro us p; simp [render_toks, last_is_uatom]
  | cons t ts ih =>
    intro us p
    rw [List.cons_append, render_toks, render_toks, last_is_uatom]
    rw [ih us (is_uatom t)]
    simp [List.append_assoc]

mutual

theorem mach_loop_toks : ∀ (s : Sexp) (need : Bool),
    (write_mach_loop s need).1 = render_toks need (mach_tokens s) ∧
    (write_mach_loop s need).2 = last_is_uatom need (mach_tokens s)
  | .Atom a => fun need => by
    rw [write_mach_loop, mach_tokens]
    by_cases h : must_escape a
    · simp [h, render_toks, tok_bytes, is_uatom, last_is_uatom]
    · simp [h, render_toks, tok_bytes, is_uatom, last_is_uatom]
  | .List l => fun need => by
    rw [write_mach_loop, mach_tokens]
    have helems := mach_elems_toks l false
    constructor
    · simp only []
      rw [helems.1]
      simp only [render_toks.eq_2, render_toks_append]
      simp [render_toks, tok_bytes, is_uatom]
    · simp only []
      simp only [last_is_uatom.eq_2, last_is_uatom_append]
      simp [last_is_uatom, is_uatom]

theorem mach_elems_toks : ∀ (l : List Sexp), ∀ (need : Bool),
    (write_mach_elems l need).1 = render_toks need (mach_tokens_list l) ∧
    (write_mach_elems l need).2 = last_is_uatom need (mach_tokens_list l)
  | [] => fun need => by
    rw [write_mach_elems, mach_tokens_list]
    simp [render_toks, last_is_uatom]
  | s :: tl => fun need => by
    rw [write_mach_elems, mach_tokens_list]
    have h1 := mach_loop_toks s need
    have h2 := mach_elems_toks tl (write_mach_loop s need).2
    constructor
    · simp only []
      rw [render_toks_append, h1.1, h2.1, h1.2]
    · simp only []
      rw [last_is_uatom_append, h2.2, h1.2]

end

theorem to_bytes_mach_toks (T : Sexp) :
    Sexp.to_bytes_mach T = render_toks false (mach_tokens T) := by
  rw [Sexp.to_bytes_mach, (mach_loop_toks T false).1]

/-! ### The claims -/

/-- C1: for every well-formed tree `T`, parsing the output of each of the
three writers (`to_bytes`, `to_bytes_mach`, `to_bytes_hum`) with the strict
single-value parser `from_slice` yields `.ok T`. -/
theorem claim_c1_round_trip : ∀ T : Sexp, T.wf = true →
    from_slice T.to_bytes = .ok T ∧
    from_slice T.to_bytes_mach = .ok T ∧
    from_slice T.to_bytes_hum = .ok T :=
  fun _ h => ⟨round_trip_plain h, round_trip_mach h, round_trip_hum h⟩

/-- Witness for C1 at a concrete tree containing an unquoted atom, an atom
that must be quoted (byte 200) and an empty list. -/
theorem claim_c1_witness :
    Sexp.wf (.List [.Atom [97], .Atom [200], .List []]) = true ∧
    (from_slice (Sexp.to_bytes (.List [.Atom [97], .Atom [200], .List []])) =
        .ok (.List [.Atom [97], .Atom [200], .List []]) ∧
      from_slice (Sexp.to_bytes_mach
          (.List [.Atom [97], .Atom [200], .List []])) =
        .ok (.List [.Atom [97], .Atom [200], .List []]) ∧
      from_slice (Sexp.to_bytes_hum
          (.List [.Atom [97], .Atom [200], .List []])) =
        .ok (.List [.Atom [97], .Atom [200], .List []])) :=
  ⟨rfl, claim_c1_round_trip (.List [.Atom [97], .Atom [200], .List []]) rfl⟩

/-- C2 is refuted by the code: on the tree `(a…a b…b)` with two atoms of 44
bytes each, the human writer emits a single line of 91 bytes, which exceeds
`MAX_LINE_WIDTH = 90`, even though the cached pass-1 size of every child is
44 ≤ 90.  The check `size s + already_written > MAX_LINE_WIDTH` does not
count the separating space that is then emitted, so the claimed width bound
fails by one byte here. -/
theorem claim_c2_width_violation :
    (lines_of (Sexp.to_bytes_hum (.List [.Atom (List.replicate 44 97),
        .Atom (List.replicate 44 98)]))).map List.length = [91] ∧
    MAX_LINE_WIDTH < 91 ∧
    hum_child_sizes (.List [.Atom (List.replicate 44 97),
      .Atom (List.replicate 44 98)]) = [44, 44] ∧
    44 ≤ MAX_LINE_WIDTH :=
  ⟨rfl, by rw [MAX_LINE_WIDTH]; omega, rfl, by rw [MAX_LINE_WIDTH]; omega⟩

/-- C3 as stated is false: the decoder computes the `\DDD` value in `u8`
arithmetic, so `\999` yields the single byte 231 = 999 mod 256, not a byte
"whose numeric value equals the decimal number DDD". -/
theorem claim_c3_counterexample :
    from_slice [34, 92, 57, 57, 57, 34] = .ok (.Atom [231]) ∧
    (231 : Nat) ≠ 999 :=
  ⟨rfl, by omega⟩

/-- C3 amended: for a quoted atom containing `\DDD` (three decimal digits,
never a named escape since digits are not escape names), the decoder
consumes exactly the backslash and the three digits and emits exactly one
byte whose value is `DDD mod 256` (`u8` wrapping, as in a release build;
a checked build would abort on `DDD > 255`). -/
theorem claim_c3_amended {orig buffer rest : List Nat} {fuel : Nat}
    {d1 d2 d3 : Nat} (hd1 : d1 ≤ 9) (hd2 : d2 ≤ 9) (hd3 : d3 ≤ 9) :
    quoted_string_loop orig (fuel + 1) buffer
      (92 :: (48 + d1) :: (48 + d2) :: (48 + d3) :: rest) =
    quoted_string_loop orig fuel
      (buffer ++ [(100 * d1 + 10 * d2 + d3) % 256]) rest :=
  qsl_three_digit_step hd1 hd2 hd3

/-- Witness for C3 amended at `\999`. -/
theorem claim_c3_witness :
    (9 : Nat) ≤ 9 ∧
    quoted_string_loop [] 2 [] [92, 57, 57, 57] =
      quoted_string_loop [] 1 [231] [] := by
  refine ⟨by omega, ?_⟩
  have h := @claim_c3_amended [] [] [] 1 9 9 9 (by omega) (by omega) (by omega)
  simpa using h

/-- C4: the grammar functions with fuel `2 * input.length + 2` (the fuel the
entry points use) always return a result, so `from_slice_allow_remaining`
and `from_slice_multi` return the genuine parser outcome — a parsed value or
a structured error value — for every input, never reaching their fallback
branch.  This is the totality of the embedded parser. -/
theorem claim_c4_totality : ∀ input : List Nat,
    (∃ r, sexp_no_leading_blank (2 * input.length + 2)
        (space_or_comments input) = some r ∧
      from_slice_allow_remaining input = r) ∧
    (∃ rm, many0_sexp (2 * input.length + 2) (space_or_comments input) =
        some rm ∧
      from_slice_multi input =
        (match rm with
         | .ok (remaining, sexps) =>
           if remaining = [] then .ok sexps
           else .error (.failure ⟨remaining, .eof⟩)
         | .error e => .error e)) := by
  intro input
  have h1 := (parser_total (2 * input.length + 2)).1 (space_or_comments input)
    (by have := space_or_comments_length_le input; omega)
  have h2 := (parser_total (2 * input.length + 2)).2 (space_or_comments input)
    (by have := space_or_comments_length_le input; omega)
  constructor
  · cases hr : sexp_no_leading_blank (2 * input.length + 2)
        (space_or_comments input) with
    | none => rw [hr] at h1; simp at h1
    | some r =>
      exact ⟨r, rfl, by rw [from_slice_allow_remaining, hr]⟩
  · cases hr : many0_sexp (2 * input.length + 2) (space_or_comments input) with
    | none => rw [hr] at h2; simp at h2
    | some rm =>
      refine ⟨rm, rfl, ?_⟩
      rw [from_slice_multi, hr]
      cases rm with
      | ok v =>
        obtain ⟨rem, sexps⟩ := v
        simp only []
      | error e => simp only []

/-- C5: `must_escape` returns true exactly for the empty atom, an atom
containing a byte in [0,32] ∪ [127,255] or one of `"` `(` `)` `;` `\`
(`escape_worthy_byte`), or an atom containing the two-byte sequence `#|`
or `|#`. -/
theorem claim_c5_must_escape : ∀ data : List Nat,
    must_escape data = (data.isEmpty || data.any escape_worthy_byte ||
      has_pair 35 124 data || has_pair 124 35 data) :=
  fun data => must_escape_spec data

/-- C6: the machine writer's output is exactly the declarative rendering of
its token stream in which a single separating space appears between two
consecutive unquoted atoms and nowhere else — never adjacent to a quoted
atom or a parenthesis (`render_toks` inserts `[32]` exactly when the
previous token and the current token are both unquoted atoms). -/
theorem claim_c6_mach_spacing : ∀ T : Sexp,
    Sexp.to_bytes_mach T = render_toks false (mach_tokens T) :=
  fun T => to_bytes_mach_toks T

/-- C7 as stated is false in one point: an empty unquoted-atom scan is a
recoverable error (`nom::Err::Error`, kind `NonEmpty`), not a hard
(unrecoverable) failure.  At input `()` the scan returns the recoverable
variant, never the failure variant. -/
theorem claim_c7_counterexample :
    unquoted_string [40, 41] = .error (.error ⟨[40, 41], .nonEmpty⟩) ∧
    (∀ e : NomError, unquoted_string [40, 41] ≠ .error (.failure e)) :=
  ⟨rfl, fun _ h => by
    rw [show unquoted_string [40, 41] =
      .error (.error ⟨[40, 41], .nonEmpty⟩) from rfl] at h
    exact NomErr.noConfusion (Except.error.inj h)⟩

/-- C7 amended: reading an unquoted atom consumes the maximal prefix run of
non-stop bytes; a `#|` or `|#` inside the run is a hard failure
(`Failure`, kind `Not`); an empty run is a recoverable error (`Error`,
kind `NonEmpty`) — not a hard failure. -/
theorem claim_c7_amended : ∀ input : List Nat,
    unquoted_string input =
      (if has_pair 35 124 (input.takeWhile (fun c => !stop_byte c)) ||
          has_pair 124 35 (input.takeWhile (fun c => !stop_byte c)) then
        .error (.failure ⟨input, .not⟩)
      else if (input.takeWhile (fun c => !stop_byte c)).isEmpty then
        .error (.error ⟨input, .nonEmpty⟩)
      else .ok (input.dropWhile (fun c => !stop_byte c),
        input.takeWhile (fun c => !stop_byte c))) :=
  fun input => unquoted_string_spec input

/-- C8: `from_slice` succeeds exactly when `from_slice_allow_remaining`
leaves no remaining bytes, and otherwise fails with the trailing-data error
`Failure(remaining, Eof)`; concretely, `from_slice_multi` on
`(a b c)(d e)` yields exactly two list nodes while `from_slice` on the
identical input fails with the trailing-data error. -/
theorem claim_c8_strictness :
    (∀ (input rem : List Nat) (s : Sexp),
      from_slice_allow_remaining input = .ok (rem, s) →
      (from_slice input = .ok s ↔ rem = []) ∧
      (rem ≠ [] → from_slice input = .error (.failure ⟨rem, .eof⟩))) ∧
    from_slice_multi [40, 97, 32, 98, 32, 99, 41, 40, 100, 32, 101, 41] =
      .ok [.List [.Atom [97], .Atom [98], .Atom [99]],
        .List [.Atom [100], .Atom [101]]] ∧
    from_slice [40, 97, 32, 98, 32, 99, 41, 40, 100, 32, 101, 41] =
      .error (.failure ⟨[40, 100, 32, 101, 41], .eof⟩) := by
  refine ⟨?_, rfl, rfl⟩
  intro input rem s h
  refine ⟨⟨?_, ?_⟩, ?_⟩
  · intro hok
    by_cases hr : rem = []
    · exact hr
    · rw [from_slice, h] at hok
      simp only [] at hok
      rw [if_neg hr] at hok
      simp at hok
  · intro hr
    rw [from_slice, h]
    simp only []
    rw [if_pos hr]
  · intro hr
    rw [from_slice, h]
    simp only []
    rw [if_neg hr]

/-- Witness for C8 at the input `(a)`, which parses with empty remainder. -/
theorem claim_c8_witness :
    from_slice_allow_remaining [40, 97, 41] = .ok ([], .List [.Atom [97]]) ∧
    from_slice [40, 97, 41] = .ok (.List [.Atom [97]]) :=
  ⟨rfl, (claim_c8_strictness.1 [40, 97, 41] [] (.List [.Atom [97]]) rfl).1.mpr
    rfl⟩

/-- C9: `extract_enum` returns the atom's bytes with no arguments for a bare
atom, the head atom's bytes with the remaining elements for a non-empty list
headed by an atom, and an error for an empty list or a list headed by a
list. -/
theorem claim_c9_extract_enum : ∀ tag : String,
    (∀ a : List Nat, Sexp.extract_enum (.Atom a) tag = .ok (a, [])) ∧
    (Sexp.extract_enum (.List []) tag =
      .error (.expectedConstructorGotEmptyList tag)) ∧
    (∀ (a : List Nat) (tl : List Sexp),
      Sexp.extract_enum (.List (.Atom a :: tl)) tag = .ok (a, tl)) ∧
    (∀ (l2 tl : List Sexp),
      Sexp.extract_enum (.List (.List l2 :: tl)) tag =
        .error (.expectedConstructorGotListInList tag)) :=
  fun _ => ⟨fun _ => rfl, rfl, fun _ _ => rfl, fun _ _ => rfl⟩

/-- C10: in a quoted atom, a backslash followed by `x` whose next two bytes
are not both hex digits does not fail: the decoder emits the literal bytes
`\` and `x` and continues decoding the rest normally. -/
theorem claim_c10_hex_fallback {orig buffer rest : List Nat} {fuel : Nat}
    (h : two_hex_digits rest = none) :
    quoted_string_loop orig (fuel + 1) buffer (92 :: 120 :: rest) =
    quoted_string_loop orig fuel (buffer ++ [92, 120]) rest :=
  qsl_hex_fallback_step h

/-- Witness for C10 at `\x9Z` (9 is a hex digit, Z is not); the whole quoted
atom `"\x9Z"` decodes to the four bytes `\ x 9 Z`. -/
theorem claim_c10_witness :
    two_hex_digits [57, 90] = none ∧
    quoted_string_loop [] 5 [] [92, 120, 57, 90] =
      quoted_string_loop [] 4 [92, 120] [57, 90] ∧
    from_slice [34, 92, 120, 57, 90, 34] = .ok (.Atom [92, 120, 57, 90]) :=
  ⟨rfl, @claim_c10_hex_fallback [] [] [57, 90] 4 rfl, rfl⟩
